import Mathlib

/-!
Verification of the behavioral-thread scheduler (bthreads.ts).

The development shallowly embeds the scheduler core: the `Exec` state of an
async operation, the `Sync` specification a thread yields at a sync point,
the `Thread` record, the turn function `schedule` (Phase A harvest, Phase B
selection, Phase C advance), and the outer loop of `behavioralThreadSystem`.

Modelling conventions, all taken from the source:
- Thread bodies are JS generators; they are embedded as `Body`, a function
  from the resumption event to a step outcome (`yields` a new sync together
  with the continuation, finish with `dones`, or `raises` an error), plus a
  second function for `Generator.throw`.  `gen.throw(e)` on a body that does
  not catch rethrows, which is the `raises` outcome.
- The `pending` exec carries the thunk of type `() => Operation<Event>`; the
  scheduler never invokes it (only the spawned task does), so it is carried
  as an opaque payload of type `Op`.  A started operation is identified by a
  fresh task id allocated from a counter; the completion of a running task
  is an environment transition in the trace relation `SysStep`.
- JavaScript truthiness of the event type (the source guards Phase C with
  `if (selectedEvent)`) is a parameter `truthy : E → Bool`.
- `Array.prototype.sort` is stable (ES2019), embedded as a stable insertion
  sort; `Set` iteration order is insertion order, embedded as a list.
- Phase A and Phase C run in an error monad: an uncaught error from
  `proc.throw` or `proc.next` propagates out of `schedule` immediately.
- `ScheduleOut` carries, besides the data the source computes, ghost
  observations used only by the statements: the thread list after Phase A,
  the counter and did-work flag after Phase A, the raw result of the Phase-B
  `find`, the list of body resumptions performed in Phase C, and the list of
  cancelled task ids.
-/

/-- The state of an executable operation in a thread (`Exec<Event>`). -/
inductive Exec (E Err Op : Type) : Type where
  | none : Exec E Err Op
  | pending (op : Op) : Exec E Err Op
  | running (tid : Nat) : Exec E Err Op
  | done (result : Except Err E) : Exec E Err Op

/-- Thread synchronization specification at a sync point (`Sync<Event>`). -/
structure Sync (E Err Op : Type) : Type where
  post : List E
  wait : E → Bool
  halt : E → Bool
  exec : Exec E Err Op

mutual
/-- A suspended generator body: the outcome of `next(event)` and of
`throw(error)` at the current suspension point. -/
inductive Body (E Err Op : Type) : Type where
  | mk (onNext : E → BodyRes E Err Op) (onThrow : Err → BodyRes E Err Op) : Body E Err Op

/-- Outcome of resuming a generator once: it yields a sync and suspends with
a continuation, returns (`done`), or lets an error escape. -/
inductive BodyRes (E Err Op : Type) : Type where
  | yields (s : Sync E Err Op) (k : Body E Err Op) : BodyRes E Err Op
  | dones : BodyRes E Err Op
  | raises (e : Err) : BodyRes E Err Op
end

/-- Result of `gen.next(e)` at the current suspension point. -/
def Body.onNext {E Err Op : Type} : Body E Err Op → E → BodyRes E Err Op
  | .mk f _, e => f e

/-- Result of `gen.throw(err)` at the current suspension point. -/
def Body.onThrow {E Err Op : Type} : Body E Err Op → Err → BodyRes E Err Op
  | .mk _ g, err => g err

/-- A behavioral thread instance (`Thread<Event>`). -/
structure Thread (E Err Op : Type) : Type where
  name : String
  prio : Int
  proc : Body E Err Op
  sync : Sync E Err Op

/-- Creates a new sync point specification (`makeSyncSpec`): the caller's
omitted fields arrive here already defaulted, exactly as the destructuring
defaults of the source do it (`post = []`, predicates constantly false); a
supplied exec thunk is stored as `pending`, otherwise the exec is `none`. -/
def makeSyncSpec {E Err Op : Type} (post : List E) (wait : E → Bool)
    (halt : E → Bool) (exec : Option Op) : Sync E Err Op :=
  ⟨post, wait, halt, match exec with | some op => .pending op | Option.none => .none⟩

/-- An empty generator: its first `next()` reports done, a `throw` rethrows. -/
def emptyBody {E Err Op : Type} : Body E Err Op :=
  .mk (fun _ => .dones) (fun e => .raises e)

/-- Creates an empty thread (`createEmptyThread`): priority 0, empty sync,
a body that is already exhausted. -/
def createEmptyThread {E Err Op : Type} (name : String) : Thread E Err Op :=
  { name := name
    prio := 0
    proc := emptyBody
    sync := makeSyncSpec [] (fun _ => false) (fun _ => false) Option.none }

/-- Creates a new behavioral thread (`makeThread`): the behavior is invoked
once (`proc.next()`); `start` is the outcome of that first step.  A body
that completes without yielding gives the empty-thread sentinel; a body
whose first step raises makes `makeThread` itself throw. -/
def makeThread {E Err Op : Type} (name : String) (prio : Int)
    (start : BodyRes E Err Op) : Except Err (Thread E Err Op) :=
  match start with
  | .raises e => .error e
  | .dones => .ok (createEmptyThread name)
  | .yields s k => .ok { name := name, prio := prio, proc := k, sync := s }

/-- Starts a thread's pending operation if it has one
(`startThreadOperationIfNecessary`): a `pending` exec is replaced by
`running tid` where `tid` is freshly allocated from the counter; the spawned
task itself is environment behavior (its completion is a `SysStep`). -/
def startThreadOperationIfNecessary {E Err Op : Type} (t : Thread E Err Op)
    (n : Nat) : Thread E Err Op × Nat :=
  match t.sync.exec with
  | .pending _ => ({ t with sync := { t.sync with exec := .running n } }, n + 1)
  | _ => (t, n)

/-- Phase A of `schedule`: handle completed operations.  A `done(ok v)` exec
is cleared and the thread's post list is overwritten with `[v]`; a
`done(err e)` exec throws `e` into the body: if the body catches and
terminates the thread is dropped, if it catches and yields the new sync is
stored and its pending op started, and if it does not catch the error
propagates out of the phase at once.  Returns the new thread list, the
counter, and the did-work flag. -/
def phaseA {E Err Op : Type} :
    List (Thread E Err Op) → Nat →
    Except Err (List (Thread E Err Op) × Nat × Bool)
  | [], n => .ok ([], n, false)
  | t :: ts, n =>
    match t.sync.exec with
    | .done res =>
      match res with
      | .ok v =>
        match phaseA ts n with
        | .error e => .error e
        | .ok (rest, n2, _) =>
          .ok ({ t with sync := { t.sync with exec := .none, post := [v] } } :: rest,
               n2, true)
      | .error e =>
        match t.proc.onThrow e with
        | .raises e2 => .error e2
        | .dones =>
          match phaseA ts n with
          | .error e3 => .error e3
          | .ok (rest, n2, _) => .ok (rest, n2, true)
        | .yields s k =>
          match startThreadOperationIfNecessary { t with proc := k, sync := s } n with
          | (t2, n1) =>
            match phaseA ts n1 with
            | .error e3 => .error e3
            | .ok (rest, n2, _) => .ok (t2 :: rest, n2, true)
    | _ =>
      match phaseA ts n with
      | .error e => .error e
      | .ok (rest, n2, w) => .ok (t :: rest, n2, w)

/-- One step of the stable insertion sort embedding the source's
`sort((a, b) => b.prio - a.prio)`: walk past strictly higher priorities and
insert before the first element of priority at most `t.prio`, so that
elements earlier in the original list come first among equal priorities. -/
def insertByPrio {E Err Op : Type} (t : Thread E Err Op) :
    List (Thread E Err Op) → List (Thread E Err Op)
  | [] => [t]
  | u :: us => if t.prio < u.prio then u :: insertByPrio t us else t :: u :: us

/-- Stable sort of the active threads by descending priority. -/
def sortByPrioDesc {E Err Op : Type} (ts : List (Thread E Err Op)) :
    List (Thread E Err Op) :=
  ts.foldr insertByPrio []

/-- The candidate events of Phase B: threads in descending priority order
(ties by insertion order), each thread's post list in declared order. -/
def candidates {E Err Op : Type} (ts : List (Thread E Err Op)) : List E :=
  (sortByPrioDesc ts).foldr (fun t acc => t.sync.post ++ acc) []

/-- Whether some thread of the list blocks the event
(`[...threads].some((y) => y.sync.halt(x))`). -/
def blockedBy {E Err Op : Type} (ts : List (Thread E Err Op)) (e : E) : Bool :=
  ts.any fun y => y.sync.halt e

/-- Phase B of `schedule`: the first candidate no thread halts, if any. -/
def findSelected {E Err Op : Type} (ts : List (Thread E Err Op)) : Option E :=
  (candidates ts).find? fun x => !(blockedBy ts x)

/-- Phase C of `schedule`: advance the threads affected by the selected
event.  A thread whose post list contains the event or whose wait predicate
accepts it first has a running exec halted (the task id is recorded in the
cancellation log), then its body is resumed with the event (recorded in the
resumption log): termination drops the thread, a yield stores the new sync
and starts its pending op, an escaping error aborts the phase. -/
def phaseC {E Err Op : Type} [BEq E] (sel : E) :
    List (Thread E Err Op) → Nat →
    Except Err (List (Thread E Err Op) × Nat × List (String × E) × List (String × Nat))
  | [], n => .ok ([], n, [], [])
  | t :: ts, n =>
    if t.sync.post.contains sel || t.sync.wait sel then
      let cancHere : List (String × Nat) :=
        match t.sync.exec with
        | .running tid => [(t.name, tid)]
        | _ => []
      let t0 : Thread E Err Op :=
        match t.sync.exec with
        | .running _ => { t with sync := { t.sync with exec := .none } }
        | _ => t
      match t0.proc.onNext sel with
      | .raises e => .error e
      | .dones =>
        match phaseC sel ts n with
        | .error e => .error e
        | .ok (rest, n2, log, canc) =>
          .ok (rest, n2, (t.name, sel) :: log, cancHere ++ canc)
      | .yields s k =>
        match startThreadOperationIfNecessary { t0 with proc := k, sync := s } n with
        | (t2, n1) =>
          match phaseC sel ts n1 with
          | .error e => .error e
          | .ok (rest, n2, log, canc) =>
            .ok (t2 :: rest, n2, (t.name, sel) :: log, cancHere ++ canc)
    else
      match phaseC sel ts n with
      | .error e => .error e
      | .ok (rest, n2, log, canc) => .ok (t :: rest, n2, log, canc)

/-- Everything one `schedule` call computes, together with ghost
observations used by the specifications: `afterA`, `tidA` and `workA` record
the state right after Phase A, `found` the raw Phase-B find result (even
when it is falsy and therefore not acted upon), `resumed` the body
resumptions of Phase C in order, and `canc` the task cancellations of
Phase C. -/
structure ScheduleOut (E Err Op : Type) : Type where
  didWork : Bool
  threads : List (Thread E Err Op)
  nextTid : Nat
  afterA : List (Thread E Err Op)
  tidA : Nat
  workA : Bool
  found : Option E
  resumed : List (String × E)
  canc : List (String × Nat)

/-- Core scheduling function (`schedule`): Phase A harvests completed
operations, Phase B picks the first non-blocked candidate, and Phase C runs
only when the find result is truthy (`if (selectedEvent)`). -/
def schedule {E Err Op : Type} [BEq E] (truthy : E → Bool)
    (ts : List (Thread E Err Op)) (n : Nat) :
    Except Err (ScheduleOut E Err Op) :=
  match phaseA ts n with
  | .error e => .error e
  | .ok (ts1, n1, w1) =>
    match findSelected ts1 with
    | some e =>
      if truthy e then
        match phaseC e ts1 n1 with
        | .error e2 => .error e2
        | .ok (ts2, n2, log, canc) =>
          .ok ⟨true, ts2, n2, ts1, n1, w1, some e, log, canc⟩
      else .ok ⟨w1, ts1, n1, ts1, n1, w1, some e, [], []⟩
    | Option.none => .ok ⟨w1, ts1, n1, ts1, n1, w1, Option.none, [], []⟩

/-- The inner loop of the scheduler: iterate `schedule` until an iteration
reports no work; the fuel bounds the number of iterations (`none` when it
runs out, standing for divergence). -/
def runInner {E Err Op : Type} [BEq E] (truthy : E → Bool) :
    Nat → List (Thread E Err Op) → Nat →
    Except Err (Option (List (Thread E Err Op) × Nat))
  | 0, _, _ => .ok Option.none
  | fuel + 1, ts, n =>
    match schedule truthy ts n with
    | .error e => .error e
    | .ok out =>
      if out.didWork then runInner truthy fuel out.threads out.nextTid
      else .ok (some (out.threads, out.nextTid))

/-- The outer scheduling loop of `behavioralThreadSystem`: each pass first
merges the pending threads into the active set and clears `pending`, then
runs the inner loop, then breaks as soon as `pending` is empty
(`if (pendingThreads.size === 0) break`).  The admission callable is only
ever invoked by the body, which has completed before the loop starts, so
`pending` cannot refill during the loop and the continue branch is
unreachable; it is kept for structural fidelity. -/
def schedulerLoop {E Err Op : Type} [BEq E] (truthy : E → Bool) :
    Nat → Nat → List (Thread E Err Op) → List (Thread E Err Op) → Nat →
    Except Err (Option (List (Thread E Err Op) × Nat))
  | 0, _, _, _, _ => .ok Option.none
  | fuel + 1, fuelI, act, pend, n =>
    let act2 := act ++ pend
    let pend2 : List (Thread E Err Op) := []
    match runInner truthy fuelI act2 n with
    | .error e => .error e
    | .ok Option.none => .ok Option.none
    | .ok (some (ts, n2)) =>
      if pend2.isEmpty then .ok (some (ts, n2))
      else schedulerLoop truthy fuel fuelI ts pend2 n2

/-- Scheduler state outside a turn: the active set, the pending set, and
the task-id counter. -/
structure Sys (E Err Op : Type) : Type where
  active : List (Thread E Err Op)
  pending : List (Thread E Err Op)
  nextTid : Nat

/-- The admission callable handed to the body: construct the thread (the
behavior's first step outcome is `start`; `prio` is the non-configurable
default 1), start its pending operation, and add it to the pending set. -/
def admitOne {E Err Op : Type} (s : Sys E Err Op) (name : String)
    (start : BodyRes E Err Op) : Except Err (Sys E Err Op) :=
  match makeThread name 1 start with
  | .error e => .error e
  | .ok t =>
    match startThreadOperationIfNecessary t s.nextTid with
    | (t1, n1) => .ok ⟨s.active, s.pending ++ [t1], n1⟩

/-- The admissions the body performs, in order. -/
def admitAll {E Err Op : Type} :
    List (String × BodyRes E Err Op) → Sys E Err Op → Except Err (Sys E Err Op)
  | [], s => .ok s
  | (nm, b) :: rest, s =>
    match admitOne s nm b with
    | .error e => .error e
    | .ok s2 => admitAll rest s2

/-- What became of the scheduling loop, observed alongside the returned
value: it completed with a final state, or its error was caught by the
`catch` around the loop (logged to the console and discarded), or the fuel
ran out. -/
inductive LoopOutcome (E Err Op : Type) : Type where
  | completed (threads : List (Thread E Err Op)) (nextTid : Nat) : LoopOutcome E Err Op
  | caughtError (e : Err) : LoopOutcome E Err Op
  | fuelOut : LoopOutcome E Err Op

/-- Runs a system of behavioral threads (`behavioralThreadSystem`): the body
runs first and performs its admissions (an admission error propagates, the
try/catch has not started yet), then the scheduling loop runs inside
try/catch — a loop error is logged and swallowed — and the body's result is
returned in every non-diverging case. -/
def behavioralThreadSystem {E Err Op V : Type} [BEq E] (truthy : E → Bool)
    (fuelO fuelI : Nat) (admits : List (String × BodyRes E Err Op)) (v : V) :
    Except Err (V × LoopOutcome E Err Op) :=
  match admitAll admits ⟨[], [], 0⟩ with
  | .error e => .error e
  | .ok s =>
    match schedulerLoop truthy fuelO fuelI s.active s.pending s.nextTid with
    | .error e => .ok (v, .caughtError e)
    | .ok Option.none => .ok (v, .fuelOut)
    | .ok (some (ts, n)) => .ok (v, .completed ts n)

/-- Whether an exec is in the `done` state. -/
def isDoneExec {E Err Op : Type} : Exec E Err Op → Bool
  | .done _ => true
  | _ => false

/-- Whether an exec is in the `done(err)` state. -/
def isErrExec {E Err Op : Type} : Exec E Err Op → Bool
  | .done (.error _) => true
  | _ => false

/-- The Phase-A treatment of a single thread with no `done(err)` exec: a
`done(ok v)` exec is cleared and the post list overwritten with `[v]`;
every other thread is untouched. -/
def harvestOk {E Err Op : Type} (t : Thread E Err Op) : Thread E Err Op :=
  match t.sync.exec with
  | .done (.ok v) => { t with sync := { t.sync with exec := .none, post := [v] } }
  | _ => t

/-- The task ids of the running execs of a thread list, in order. -/
def runningTids {E Err Op : Type} (ts : List (Thread E Err Op)) : List Nat :=
  ts.filterMap fun t =>
    match t.sync.exec with
    | .running tid => some tid
    | _ => Option.none

/-- Whether an exec is in a not-yet-started state (`none` or `pending`) —
the only exec states a body can produce through `makeSyncSpec`. -/
def notStartedExec {E Err Op : Type} : Exec E Err Op → Bool
  | .none => true
  | .pending _ => true
  | _ => false

mutual
/-- A body all of whose reachable yields carry a not-yet-started exec, as
every body built from `makeSyncSpec` does: bodies cannot forge `running`
or `done` exec states, which only the scheduler and the spawned task
create. -/
inductive GoodBody (E Err Op : Type) : Body E Err Op → Prop where
  | mk (f : E → BodyRes E Err Op) (g : Err → BodyRes E Err Op) :
      (∀ e, GoodRes E Err Op (f e)) → (∀ er, GoodRes E Err Op (g er)) →
      GoodBody E Err Op (.mk f g)

/-- A resumption outcome all of whose reachable yields carry a
not-yet-started exec. -/
inductive GoodRes (E Err Op : Type) : BodyRes E Err Op → Prop where
  | yields (s : Sync E Err Op) (k : Body E Err Op) :
      notStartedExec s.exec = true → GoodBody E Err Op k →
      GoodRes E Err Op (.yields s k)
  | dones : GoodRes E Err Op .dones
  | raises (e : Err) : GoodRes E Err Op (.raises e)
end

/-- All threads of the list have good bodies. -/
def GoodThreads {E Err Op : Type} (ts : List (Thread E Err Op)) : Prop :=
  ∀ t ∈ ts, GoodBody E Err Op t.proc

/-- Transitions of the scheduler-and-environment system over states
`(threads, counter)`: either the scheduler runs one turn, or the
environment completes the spawned task of some running exec, writing its
terminal `done` result.  A completion is enabled only while the exec is
`running`: after `task.halt()` has been awaited the task is gone and can
no longer write, which is exactly the structured-concurrency contract the
source relies on. -/
inductive SysStep {E Err Op : Type} [BEq E] (truthy : E → Bool) :
    List (Thread E Err Op) × Nat → List (Thread E Err Op) × Nat → Prop where
  | turn (ts : List (Thread E Err Op)) (n : Nat) (out : ScheduleOut E Err Op) :
      schedule truthy ts n = .ok out →
      SysStep truthy (ts, n) (out.threads, out.nextTid)
  | complete (ts : List (Thread E Err Op)) (n i : Nat) (t : Thread E Err Op)
      (tid : Nat) (res : Except Err E) :
      ts.get? i = some t → t.sync.exec = .running tid →
      SysStep truthy (ts, n)
        (ts.set i { t with sync := { t.sync with exec := .done res } }, n)

/-- Reflexive-transitive closure of the system transitions. -/
def Reachable {E Err Op : Type} [BEq E] (truthy : E → Bool)
    (st st2 : List (Thread E Err Op) × Nat) : Prop :=
  Relation.ReflTransGen (SysStep truthy) st st2

/-- The task id is retired in the state: it is below the allocation
counter, no exec runs it, every running id is below the counter, the
running ids are distinct, and all bodies are good.  These are exactly the
facts preserved by every transition. -/
def TidRetired {E Err Op : Type} (tid : Nat)
    (st : List (Thread E Err Op) × Nat) : Prop :=
  tid < st.2 ∧ tid ∉ runningTids st.1 ∧
  (∀ a ∈ runningTids st.1, a < st.2) ∧ (runningTids st.1).Nodup ∧
  GoodThreads st.1

/-! Concrete instances used by the counterexamples and witnesses.  Events
and errors are strings; the truthiness of a string is nonemptiness; the
opaque op payload is `Unit`. -/

/-- JavaScript truthiness of a string event: only the empty string is
falsy. -/
def truthyStr : String → Bool := fun s => !(s == "")

/-- A body whose next step finishes and whose throw rethrows (a generator
at its last suspension point with no try/catch around it). -/
def bodyDone : Body String String Unit := .mk (fun _ => .dones) (fun e => .raises e)

/-- A body that catches anything thrown into it and returns at once. -/
def bodyCatchDone : Body String String Unit := .mk (fun _ => .dones) (fun _ => .dones)

/-- A body whose next step raises an error that the body does not catch. -/
def bodyRaiseBoom : Body String String Unit :=
  .mk (fun _ => .raises "boom") (fun e => .raises e)

/-- Sync that only posts the given events. -/
def syncPostOnly (post : List String) : Sync String String Unit :=
  makeSyncSpec post (fun _ => false) (fun _ => false) Option.none

/-- First sync of the C1 thread: nothing but a pending async op. -/
def c1sync : Sync String String Unit :=
  makeSyncSpec [] (fun _ => false) (fun _ => false) (some ())

/-- The C1 body admissions: a single thread that only starts an async op. -/
def c1admits : List (String × BodyRes String String Unit) :=
  [("w", .yields c1sync bodyDone)]

/-- Projection of a loop outcome onto the exec states of the final
threads. -/
def execsOfOutcome {E Err Op : Type} :
    LoopOutcome E Err Op → Option (List (Exec E Err Op))
  | .completed ts _ => some (ts.map fun t => t.sync.exec)
  | _ => Option.none

/-- C2 scenario: a thread with a pre-existing post entry and a completed
op. -/
def c2t : Thread String String Unit :=
  { name := "t", prio := 1, proc := bodyDone,
    sync := { post := ["a"], wait := fun _ => false, halt := fun _ => false,
              exec := .done (.ok "b") } }

/-- C3 scenario: a thread whose op failed and whose body does not catch. -/
def c3t1 : Thread String String Unit :=
  { name := "t1", prio := 1, proc := bodyDone,
    sync := { post := [], wait := fun _ => false, halt := fun _ => false,
              exec := .done (.error "boom") } }

/-- C3 scenario: an unrelated healthy thread. -/
def c3t2 : Thread String String Unit :=
  { name := "t2", prio := 1, proc := bodyDone, sync := syncPostOnly ["x"] }

/-- C4 scenario: the admissions of a body whose single thread raises when
advanced, making the scheduling loop fail. -/
def c4admits : List (String × BodyRes String String Unit) :=
  [("r", .yields (syncPostOnly ["x"]) bodyRaiseBoom)]

/-- The thread the C4 admission constructs. -/
def c4thread : Thread String String Unit :=
  { name := "r", prio := 1, proc := bodyRaiseBoom, sync := syncPostOnly ["x"] }

/-- C6 scenario: a thread that blocks "x" but whose failed op's error is
caught by the body, which then terminates during Phase A. -/
def c6t1 : Thread String String Unit :=
  { name := "t1", prio := 1, proc := bodyCatchDone,
    sync := { post := [], wait := fun _ => false, halt := fun e => e == "x",
              exec := .done (.error "E") } }

/-- C6 scenario: a thread posting "x". -/
def c6t2 : Thread String String Unit :=
  { name := "t2", prio := 1, proc := bodyDone, sync := syncPostOnly ["x"] }

/-- The output of `schedule` on the C6 witness input `[c6t2]`. -/
def c6wout : ScheduleOut String String Unit :=
  ⟨true, [], 0, [c6t2], 0, false, some "x", [("t2", "x")], []⟩

/-- C7 scenario: a thread posting "e". -/
def c7t2 : Thread String String Unit :=
  { name := "t2", prio := 1, proc := bodyDone, sync := syncPostOnly ["e"] }

/-- C7 scenario: a thread that has "e" in its post list at turn start but
also a completed op, whose harvest overwrites the post list. -/
def c7t : Thread String String Unit :=
  { name := "t", prio := 1, proc := bodyDone,
    sync := { post := ["e"], wait := fun _ => false, halt := fun _ => false,
              exec := .done (.ok "v") } }

/-- The output of `schedule` on the C7 witness input `[c7t2]`. -/
def c7wout : ScheduleOut String String Unit :=
  ⟨true, [], 0, [c7t2], 0, false, some "e", [("t2", "e")], []⟩

/-- C8 scenario: a thread waiting for "x" with a running op (task id 0). -/
def c8tA : Thread String String Unit :=
  { name := "A", prio := 1, proc := bodyDone,
    sync := { post := [], wait := fun e => e == "x", halt := fun _ => false,
              exec := .running 0 } }

/-- C8 scenario: a thread posting "x". -/
def c8tB : Thread String String Unit :=
  { name := "B", prio := 1, proc := bodyDone, sync := syncPostOnly ["x"] }

/-- The output of `schedule` on the C8 witness input `[c8tA, c8tB]`. -/
def c8out : ScheduleOut String String Unit :=
  ⟨true, [], 1, [c8tA, c8tB], 1, false, some "x",
   [("A", "x"), ("B", "x")], [("A", 0)]⟩

/-- The thread the C9 witness admission constructs. -/
def c9thread : Thread String String Unit :=
  { name := "p", prio := 1, proc := bodyDone, sync := syncPostOnly ["x"] }

/-- The system state after the C9 witness admission. -/
def c9sys : Sys String String Unit := ⟨[], [c9thread], 0⟩

/-- C10 scenario: a thread posting only the empty string, which is falsy. -/
def c10t : Thread String String Unit :=
  { name := "t", prio := 1, proc := bodyDone, sync := syncPostOnly [""] }

/-- The output of `schedule` on the C10 witness input `[c10t]`. -/
def c10out : ScheduleOut String String Unit :=
  ⟨false, [c10t], 0, [c10t], 0, false, some "", [], []⟩

/-! General lemmas about Phase A. -/

/-- Threads with no completed op pass through Phase A untouched, doing no
work. -/
theorem phaseA_clean {E Err Op : Type} (ts : List (Thread E Err Op)) (n : Nat)
    (h : ∀ u ∈ ts, isDoneExec u.sync.exec = false) :
    phaseA ts n = .ok (ts, n, false) := by
  induction ts with
  | nil => rfl
  | cons t ts ih =>
    have ht := h t (List.mem_cons_self t ts)
    have h2 : ∀ u ∈ ts, isDoneExec u.sync.exec = false :=
      fun u hu => h u (List.mem_cons_of_mem t hu)
    cases hx : t.sync.exec with
    | done res => rw [hx] at ht; simp [isDoneExec] at ht
    | none => simp [phaseA, hx, ih h2]
    | pending op => simp [phaseA, hx, ih h2]
    | running tid => simp [phaseA, hx, ih h2]

/-- Phase A over a list whose front part has no completed ops: the front
is kept as is and the rest is processed from the same counter. -/
theorem phaseA_append_clean {E Err Op : Type} (front ts : List (Thread E Err Op))
    (n : Nat) (h : ∀ u ∈ front, isDoneExec u.sync.exec = false) :
    phaseA (front ++ ts) n =
      match phaseA ts n with
      | .error e => .error e
      | .ok (rest, n2, w) => .ok (front ++ rest, n2, w) := by
  induction front with
  | nil =>
    cases hr : phaseA ts n with
    | error e => simp [hr]
    | ok trip => obtain ⟨rest, n2, w⟩ := trip; simp [hr]
  | cons u us ih =>
    have hu := h u (List.mem_cons_self u us)
    have h2 : ∀ x ∈ us, isDoneExec x.sync.exec = false :=
      fun x hx => h x (List.mem_cons_of_mem u hx)
    have ih2 := ih h2
    cases hx : u.sync.exec with
    | done res => rw [hx] at hu; simp [isDoneExec] at hu
    | none =>
      cases hr : phaseA ts n with
      | error e =>
        have ih3 : phaseA (us ++ ts) n = .error e := by rw [ih2, hr]
        simp [phaseA, hx, ih3, hr]
      | ok trip =>
        obtain ⟨rest, n2, w⟩ := trip
        have ih3 : phaseA (us ++ ts) n = .ok (us ++ rest, n2, w) := by rw [ih2, hr]
        simp [phaseA, hx, ih3, hr]
    | pending op =>
      cases hr : phaseA ts n with
      | error e =>
        have ih3 : phaseA (us ++ ts) n = .error e := by rw [ih2, hr]
        simp [phaseA, hx, ih3, hr]
      | ok trip =>
        obtain ⟨rest, n2, w⟩ := trip
        have ih3 : phaseA (us ++ ts) n = .ok (us ++ rest, n2, w) := by rw [ih2, hr]
        simp [phaseA, hx, ih3, hr]
    | running tid =>
      cases hr : phaseA ts n with
      | error e =>
        have ih3 : phaseA (us ++ ts) n = .error e := by rw [ih2, hr]
        simp [phaseA, hx, ih3, hr]
      | ok trip =>
        obtain ⟨rest, n2, w⟩ := trip
        have ih3 : phaseA (us ++ ts) n = .ok (us ++ rest, n2, w) := by rw [ih2, hr]
        simp [phaseA, hx, ih3, hr]

/-- When no thread's op has failed, Phase A is exactly the per-thread
`harvestOk` map: it keeps the counter and reports work iff some op was
done. -/
theorem phaseA_noErr {E Err Op : Type} (ts : List (Thread E Err Op)) (n : Nat)
    (h : ∀ t ∈ ts, isErrExec t.sync.exec = false) :
    phaseA ts n = .ok (ts.map harvestOk, n, ts.any fun t => isDoneExec t.sync.exec) := by
  induction ts with
  | nil => rfl
  | cons t ts ih =>
    have ht := h t (List.mem_cons_self t ts)
    have h2 : ∀ u ∈ ts, isErrExec u.sync.exec = false :=
      fun u hu => h u (List.mem_cons_of_mem t hu)
    cases hx : t.sync.exec with
    | done res =>
      cases res with
      | ok v => simp [phaseA, hx, ih h2, harvestOk, isDoneExec]
      | error e => rw [hx] at ht; simp [isErrExec] at ht
    | none => simp [phaseA, hx, ih h2, harvestOk, isDoneExec]
    | pending op => simp [phaseA, hx, ih h2, harvestOk, isDoneExec]
    | running tid => simp [phaseA, hx, ih h2, harvestOk, isDoneExec]

/-- An uncaught error thrown into a body during Phase A aborts the phase
at once with that error. -/
theorem phaseA_abort {E Err Op : Type} (front rest : List (Thread E Err Op))
    (t : Thread E Err Op) (er e2 : Err) (n : Nat)
    (hfront : ∀ u ∈ front, isDoneExec u.sync.exec = false)
    (ht : t.sync.exec = .done (.error er))
    (hthrow : t.proc.onThrow er = .raises e2) :
    phaseA (front ++ t :: rest) n = .error e2 := by
  rw [phaseA_append_clean front (t :: rest) n hfront]
  simp [phaseA, ht, hthrow]

/-- The outer-loop pass: merge the pending set into the active set, run
the inner loop, and (pending being empty) stop with its result. -/
theorem schedulerLoop_succ {E Err Op : Type} [BEq E] (truthy : E → Bool)
    (fuel fuelI : Nat) (act pend : List (Thread E Err Op)) (n : Nat) :
    schedulerLoop truthy (fuel + 1) fuelI act pend n =
      runInner truthy fuelI (act ++ pend) n := by
  cases hr : runInner truthy fuelI (act ++ pend) n with
  | error e => simp [schedulerLoop, hr]
  | ok o =>
    cases o with
    | none => simp [schedulerLoop, hr]
    | some p =>
      obtain ⟨ts, n2⟩ := p
      simp [schedulerLoop, hr]

/-- Inversion of a successful `schedule` call: Phase A produced the ghost
`afterA` state, the find result is the ghost `found`, and either a truthy
event was selected and Phase C produced the final state, or nothing was
acted upon and the final state is the Phase-A state. -/
theorem schedule_inversion {E Err Op : Type} [BEq E] (truthy : E → Bool)
    (ts : List (Thread E Err Op)) (n : Nat) (out : ScheduleOut E Err Op)
    (h : schedule truthy ts n = .ok out) :
    phaseA ts n = .ok (out.afterA, out.tidA, out.workA) ∧
    out.found = findSelected out.afterA ∧
    ((∃ e, out.found = some e ∧ truthy e = true ∧
        phaseC e out.afterA out.tidA =
          .ok (out.threads, out.nextTid, out.resumed, out.canc) ∧
        out.didWork = true) ∨
      (out.threads = out.afterA ∧ out.nextTid = out.tidA ∧ out.resumed = [] ∧
        out.canc = [] ∧ out.didWork = out.workA ∧
        ∀ e, out.found = some e → truthy e = false)) := by
  unfold schedule at h
  cases ha : phaseA ts n with
  | error e2 => rw [ha] at h; simp at h
  | ok trip =>
    obtain ⟨ts1, n1, w1⟩ := trip
    rw [ha] at h
    simp only at h
    cases hfind : findSelected ts1 with
    | none =>
      rw [hfind] at h
      simp only at h
      injection h with h
      subst h
      exact ⟨rfl, hfind.symm, Or.inr ⟨rfl, rfl, rfl, rfl, rfl,
        fun e he => Option.noConfusion he⟩⟩
    | some e1 =>
      rw [hfind] at h
      simp only at h
      by_cases ht1 : truthy e1 = true
      · rw [if_pos ht1] at h
        cases hc : phaseC e1 ts1 n1 with
        | error e2 => rw [hc] at h; simp at h
        | ok quad =>
          obtain ⟨ts2, n2, log, canc⟩ := quad
          rw [hc] at h
          simp only at h
          injection h with h
          subst h
          exact ⟨rfl, hfind.symm, Or.inl ⟨e1, rfl, ht1, hc, rfl⟩⟩
      · rw [if_neg ht1] at h
        injection h with h
        subst h
        refine ⟨rfl, hfind.symm, Or.inr ⟨rfl, rfl, rfl, rfl, rfl, ?_⟩⟩
        intro e he
        injection he with he
        subst he
        simpa using ht1

/-! Claim theorems C1 through C5, C9 and C10. -/

/-- Claim C1 (code bug, evaluated at the failing input): the body admits a
single thread whose first sync carries only an async op; after admission
the op is running (task 0).  The scheduling loop's first pass finds no
completed op and no selectable event, reports no work, and — pending being
empty — breaks, so `behavioralThreadSystem` returns the body's value "v"
while the thread's exec is still `running 0`, contradicting the claim that
the system is quiescent (no running exec) whenever `run_system` returns. -/
theorem c1_returns_while_running :
    (behavioralThreadSystem truthyStr 3 5 c1admits "v").map
        (fun r => (r.1, execsOfOutcome r.2)) =
      .ok ("v", some [Exec.running 0]) := rfl

/-- Claim C2 (amended): in Phase A, a thread whose exec is `done(ok v)`
has its exec cleared and its post list overwritten with the single-element
list `[v]` — the pre-existing post entries are discarded, not kept — while
its body, wait and halt are untouched; when no op has failed, Phase A is
exactly this per-thread harvest with the counter unchanged. -/
theorem c2_amended_harvest {E Err Op : Type} (ts : List (Thread E Err Op)) (n : Nat)
    (h : ∀ t ∈ ts, isErrExec t.sync.exec = false) :
    phaseA ts n = .ok (ts.map harvestOk, n, ts.any fun t => isDoneExec t.sync.exec) ∧
    ∀ t : Thread E Err Op, ∀ v : E, t.sync.exec = .done (.ok v) →
      (harvestOk t).sync.exec = .none ∧ (harvestOk t).sync.post = [v] ∧
      (harvestOk t).proc = t.proc ∧ (harvestOk t).sync.wait = t.sync.wait ∧
      (harvestOk t).sync.halt = t.sync.halt ∧ (harvestOk t).name = t.name ∧
      (harvestOk t).prio = t.prio := by
  refine ⟨phaseA_noErr ts n h, fun t v hv => ?_⟩
  simp [harvestOk, hv]

/-- Claim C2, witness for the amended theorem at a concrete input. -/
theorem c2_amended_witness :
    phaseA [c2t] 0 = .ok ([harvestOk c2t], 0, true) :=
  (c2_amended_harvest [c2t] 0 (by decide)).1

/-- Claim C2, counterexample to the claim as stated: the thread `c2t` has
post `["a"]` and exec `done(ok "b")`; after Phase A its post list is
`["b"]`, not the appended `["a", "b"]` the claim requires. -/
theorem c2_counterexample :
    (phaseA [c2t] 0).map (fun r => r.1.map fun t => t.sync.post) = .ok [["b"]] ∧
    c2t.sync.post = ["a"] ∧ c2t.sync.exec = .done (.ok "b") ∧
    (["b"] : List String) ≠ ["a", "b"] :=
  ⟨rfl, rfl, rfl, by decide⟩

/-- Claim C3 (amended): when an op's error is thrown into its thread's
body in Phase A, there are two cases.  If the body catches it and then
terminates, that thread alone is removed and every other (done-free)
thread passes through unchanged, the turn continuing.  If the body does
not catch it, the error propagates out of `schedule` immediately — the
turn aborts for all threads, no thread is removed, and the scheduling
loop ends (the error is then caught and discarded by
`behavioralThreadSystem`). -/
theorem c3_amended_uncaught_aborts {E Err Op : Type} [BEq E] (truthy : E → Bool)
    (front rest : List (Thread E Err Op)) (t : Thread E Err Op) (er : Err) (n : Nat)
    (hfront : ∀ u ∈ front, isDoneExec u.sync.exec = false)
    (ht : t.sync.exec = .done (.error er)) :
    (∀ e2, t.proc.onThrow er = .raises e2 →
        schedule truthy (front ++ t :: rest) n = .error e2) ∧
    (t.proc.onThrow er = .dones → (∀ u ∈ rest, isDoneExec u.sync.exec = false) →
        phaseA (front ++ t :: rest) n = .ok (front ++ rest, n, true)) := by
  constructor
  · intro e2 hthrow
    unfold schedule
    rw [phaseA_abort front rest t er e2 n hfront ht hthrow]
  · intro hthrow hrest
    rw [phaseA_append_clean front (t :: rest) n hfront]
    simp [phaseA, ht, hthrow, phaseA_clean rest n hrest]

/-- Claim C3, witness: the amended theorem applied to the concrete
scenario of a failed op whose body rethrows, next to a healthy thread. -/
theorem c3_witness :
    schedule truthyStr [c3t1, c3t2] 0 = Except.error "boom" :=
  (c3_amended_uncaught_aborts truthyStr [] [c3t2] c3t1 "boom" 0 (by simp) rfl).1
    "boom" rfl

/-- Claim C3, counterexample to the claim as stated: thread `c3t1` has a
failed op and a body that does not catch; the claim says only `c3t1`
terminates and the scheduler keeps running, but `schedule` (and with it
the whole inner loop) aborts with the error, so the healthy thread `c3t2`
is never scheduled again and `c3t1` is not removed. -/
theorem c3_counterexample :
    schedule truthyStr [c3t1, c3t2] 0 = Except.error "boom" ∧
    runInner truthyStr 5 [c3t1, c3t2] 0 = Except.error "boom" ∧
    c3t1.proc.onThrow "boom" = .raises "boom" :=
  ⟨rfl, rfl, rfl⟩

/-- Claim C4 (amended): an error raised inside the scheduling loop does
not propagate out of `behavioralThreadSystem`; the catch around the loop
swallows it (logging to the console) and the call returns the body's
result normally, recording the caught error in the outcome. -/
theorem c4_amended_loop_error_caught {E Err Op V : Type} [BEq E] (truthy : E → Bool)
    (fuelO fuelI : Nat) (admits : List (String × BodyRes E Err Op)) (v : V)
    (s : Sys E Err Op) (e : Err)
    (hadm : admitAll admits ⟨[], [], 0⟩ = .ok s)
    (hloop : schedulerLoop truthy fuelO fuelI s.active s.pending s.nextTid = .error e) :
    behavioralThreadSystem truthy fuelO fuelI admits v = .ok (v, .caughtError e) := by
  simp only [behavioralThreadSystem, hadm, hloop]

/-- Claim C4, witness: the amended theorem applied to a concrete system
whose single thread raises when advanced. -/
theorem c4_witness :
    behavioralThreadSystem truthyStr 3 5 c4admits "v" =
      .ok ("v", .caughtError "boom") :=
  c4_amended_loop_error_caught truthyStr 3 5 c4admits "v" ⟨[], [c4thread], 0⟩
    "boom" rfl rfl

/-- Claim C4, counterexample to the claim as stated: the system `c4admits`
raises "boom" inside the scheduling loop (its thread's body raises when
advanced with the selected event), yet `behavioralThreadSystem` returns
`.ok` with the body's value — the error is caught and discarded, not
propagated to the caller. -/
theorem c4_counterexample :
    behavioralThreadSystem truthyStr 3 5 c4admits "v" =
      .ok ("v", .caughtError "boom") ∧
    schedulerLoop truthyStr 3 5 ([] : List (Thread String String Unit))
        [c4thread] 0 = .error "boom" :=
  ⟨rfl, rfl⟩

/-- Claim C5 (amended): a behavior that completes on its first step still
yields the sentinel empty thread from `makeThread` — priority 0, empty
sync, exhausted body — but the admission function does not omit it: the
sentinel is appended to the pending set like any other thread, the active
set and counter unchanged. -/
theorem c5_amended_sentinel_admitted {E Err Op : Type} (s : Sys E Err Op)
    (name : String) :
    admitOne s name .dones =
      .ok ⟨s.active, s.pending ++ [createEmptyThread name], s.nextTid⟩ ∧
    (createEmptyThread name : Thread E Err Op).prio = 0 ∧
    (createEmptyThread name : Thread E Err Op).sync.post = [] ∧
    (createEmptyThread name : Thread E Err Op).sync.exec = .none ∧
    (createEmptyThread name : Thread E Err Op).proc = emptyBody :=
  ⟨rfl, rfl, rfl, rfl, rfl⟩

/-- Claim C5, counterexample to the claim as stated: admitting an
immediately-done behavior into the empty system leaves pending with one
thread (the sentinel, named after the admission, priority 0) — the set of
admitted threads is not unchanged. -/
theorem c5_counterexample :
    (admitOne (⟨[], [], 0⟩ : Sys String String Unit) "x" .dones).map
        (fun s => (s.active.length, s.pending.map fun t => (t.name, t.prio))) =
      .ok (0, [("x", 0)]) ∧ ([("x", (0 : Int))] : List (String × Int)) ≠ [] :=
  ⟨rfl, by decide⟩

/-- Claim C9 (confirmed): a thread admitted through the admission function
goes to the pending set — the active set is unchanged, so the turn in
progress (which reads only the active set) selects and blocks exactly as
before — and the very next outer-loop pass begins by merging pending into
active before its first `schedule` call, so the thread is live from the
next turn onward. -/
theorem c9_admission_pending {E Err Op : Type} [BEq E] (truthy : E → Bool)
    (s : Sys E Err Op) (nm : String) (start : BodyRes E Err Op)
    (s2 : Sys E Err Op) (n : Nat)
    (h : admitOne s nm start = .ok s2) :
    s2.active = s.active ∧
    (∃ t, s2.pending = s.pending ++ [t]) ∧
    schedule truthy s2.active n = schedule truthy s.active n ∧
    ∀ fuel fuelI n2,
      schedulerLoop truthy (fuel + 1) fuelI s2.active s2.pending n2 =
        runInner truthy fuelI (s2.active ++ s2.pending) n2 := by
  unfold admitOne at h
  cases hm : makeThread nm 1 start with
  | error e => rw [hm] at h; simp at h
  | ok t =>
    rw [hm] at h
    injection h with h
    subst h
    refine ⟨rfl, ⟨(startThreadOperationIfNecessary t s.nextTid).1, rfl⟩, rfl, ?_⟩
    intro fuel fuelI n2
    exact schedulerLoop_succ truthy fuel fuelI _ _ n2

/-- Claim C9, witness: the admission of a posting thread into the empty
system leaves the active set empty. -/
theorem c9_witness :
    c9sys.active = ([] : List (Thread String String Unit)) :=
  (c9_admission_pending truthyStr ⟨[], [], 0⟩ "p"
    (.yields (syncPostOnly ["x"]) bodyDone) c9sys 0 rfl).1

/-- Claim C10 (confirmed): when the first unblocked candidate of Phase B
is falsy, `schedule` acts as if no event were selected: Phase C does not
run (no resumption, no cancellation), the thread list and counter stay as
Phase A left them, and the did-work flag is Phase A's alone, so a falsy
posted event never advances any thread in any turn. -/
theorem c10_falsy_not_selected {E Err Op : Type} [BEq E] (truthy : E → Bool)
    (ts : List (Thread E Err Op)) (n : Nat) (out : ScheduleOut E Err Op) (e : E)
    (h : schedule truthy ts n = .ok out) (hf : out.found = some e)
    (htr : truthy e = false) :
    out.threads = out.afterA ∧ out.nextTid = out.tidA ∧
    out.resumed = [] ∧ out.canc = [] ∧ out.didWork = out.workA := by
  obtain ⟨-, -, hcase⟩ := schedule_inversion truthy ts n out h
  rcases hcase with ⟨e1, he1, ht1, -, -⟩ | ⟨h1, h2, h3, h4, h5, -⟩
  · rw [hf] at he1
    injection he1 with he1
    rw [he1] at htr
    rw [htr] at ht1
    simp at ht1
  · exact ⟨h1, h2, h3, h4, h5⟩

/-- Claim C10, witness: a thread posting only the empty string; the find
result is the falsy empty string and the turn does nothing. -/
theorem c10_witness : c10out.threads = c10out.afterA :=
  (c10_falsy_not_selected truthyStr [c10t] 0 c10out "" rfl rfl rfl).1

/-! Lemmas about the Phase-B candidate order and selection. -/

/-- Membership in the insertion step. -/
theorem mem_insertByPrio {E Err Op : Type} (t x : Thread E Err Op)
    (l : List (Thread E Err Op)) :
    x ∈ insertByPrio t l ↔ x = t ∨ x ∈ l := by
  induction l with
  | nil => simp [insertByPrio]
  | cons u us ih =>
    by_cases hcmp : t.prio < u.prio
    · simp only [insertByPrio, if_pos hcmp, List.mem_cons, ih]
      tauto
    · simp only [insertByPrio, if_neg hcmp, List.mem_cons]

/-- The insertion step preserves descending priority order. -/
theorem insertByPrio_pairwise {E Err Op : Type} (t : Thread E Err Op)
    (l : List (Thread E Err Op))
    (hl : l.Pairwise fun a b => b.prio ≤ a.prio) :
    (insertByPrio t l).Pairwise fun a b => b.prio ≤ a.prio := by
  induction l with
  | nil => simp [insertByPrio]
  | cons u us ih =>
    rcases List.pairwise_cons.mp hl with ⟨hu, hus⟩
    by_cases hcmp : t.prio < u.prio
    · simp only [insertByPrio, if_pos hcmp]
      refine List.pairwise_cons.mpr ⟨?_, ih hus⟩
      intro x hx
      rcases (mem_insertByPrio t x us).mp hx with rfl | hx2
      · exact le_of_lt hcmp
      · exact hu x hx2
    · simp only [insertByPrio, if_neg hcmp]
      refine List.pairwise_cons.mpr ⟨?_, hl⟩
      intro x hx
      rcases List.mem_cons.mp hx with rfl | hx2
      · exact not_lt.mp hcmp
      · exact le_trans (hu x hx2) (not_lt.mp hcmp)

/-- The sorted candidate-thread list is in descending priority order. -/
theorem sortByPrioDesc_pairwise {E Err Op : Type} (ts : List (Thread E Err Op)) :
    (sortByPrioDesc ts).Pairwise fun a b => b.prio ≤ a.prio := by
  induction ts with
  | nil => simp [sortByPrioDesc]
  | cons t ts ih =>
    show (insertByPrio t (sortByPrioDesc ts)).Pairwise _
    exact insertByPrio_pairwise t _ ih

/-- Stability of the insertion step: the elements of any one priority keep
their relative order, the inserted element going first among its equals. -/
theorem insertByPrio_filter {E Err Op : Type} (t : Thread E Err Op)
    (l : List (Thread E Err Op)) (p : Int) :
    (insertByPrio t l).filter (fun u => u.prio == p) =
      if t.prio == p then t :: l.filter (fun u => u.prio == p)
      else l.filter (fun u => u.prio == p) := by
  induction l with
  | nil => cases hb : (t.prio == p) <;> simp [insertByPrio, hb]
  | cons u us ih =>
    by_cases hcmp : t.prio < u.prio
    · simp only [insertByPrio, if_pos hcmp, List.filter_cons]
      by_cases hu : (u.prio == p) = true
      · have hup : u.prio = p := beq_iff_eq.mp hu
        have htp : (t.prio == p) = false := by
          rw [beq_eq_false_iff_ne]
          intro hh
          rw [hh, ← hup] at hcmp
          exact lt_irrefl _ hcmp
        simp [hu, htp, ih]
      · have hu2 : (u.prio == p) = false := Bool.eq_false_iff.mpr hu
        simp [hu2, ih]
    · simp only [insertByPrio, if_neg hcmp, List.filter_cons]

/-- Stability of the sort: within each priority, the sorted list preserves
the insertion order of the active set. -/
theorem sortByPrioDesc_filter {E Err Op : Type} (ts : List (Thread E Err Op))
    (p : Int) :
    (sortByPrioDesc ts).filter (fun u => u.prio == p) =
      ts.filter (fun u => u.prio == p) := by
  induction ts with
  | nil => rfl
  | cons t ts ih =>
    show (insertByPrio t (sortByPrioDesc ts)).filter _ = _
    rw [insertByPrio_filter]
    cases hb : (t.prio == p) with
    | true => simp [hb, ih, List.filter_cons]
    | false => simp [hb, ih, List.filter_cons]

/-- A successful `find?` splits the list at the first hit: everything
before it fails the predicate. -/
theorem find?_eq_some_split {α : Type} (p : α → Bool) (l : List α) (a : α)
    (h : l.find? p = some a) :
    p a = true ∧ ∃ l1 l2, l = l1 ++ a :: l2 ∧ ∀ x ∈ l1, p x = false := by
  induction l with
  | nil => simp [List.find?] at h
  | cons x xs ih =>
    cases hx : p x with
    | true =>
      rw [List.find?_cons_of_pos _ hx] at h
      injection h with h
      subst h
      exact ⟨hx, [], xs, rfl, by simp⟩
    | false =>
      rw [List.find?_cons_of_neg _ (by simp [hx])] at h
      obtain ⟨hp, l1, l2, rfl, hall⟩ := ih h
      refine ⟨hp, x :: l1, l2, rfl, ?_⟩
      intro y hy
      rcases List.mem_cons.mp hy with rfl | hy2
      · exact hx
      · exact hall y hy2

/-- Claim C6 (amended): the Phase-B find result, when some event is found,
is the first element of the candidate sequence — threads in descending
priority with equal priorities in insertion order, each thread's posts in
declared order — that no thread blocks, every earlier candidate being
blocked; when no candidate passes, nothing is found.  The active set
consulted is the one Phase A left behind (`afterA`), not the turn-start
set: a thread removed or rewritten by Phase A no longer blocks. -/
theorem c6_amended_selection {E Err Op : Type} [BEq E] (truthy : E → Bool)
    (ts : List (Thread E Err Op)) (n : Nat) (out : ScheduleOut E Err Op)
    (h : schedule truthy ts n = .ok out) :
    out.found = findSelected out.afterA ∧
    (∀ e, out.found = some e →
      (∀ y ∈ out.afterA, y.sync.halt e = false) ∧
      ∃ l1 l2, candidates out.afterA = l1 ++ e :: l2 ∧
        ∀ x ∈ l1, blockedBy out.afterA x = true) ∧
    (out.found = Option.none →
      ∀ x ∈ candidates out.afterA, blockedBy out.afterA x = true) ∧
    (sortByPrioDesc out.afterA).Pairwise (fun a b => b.prio ≤ a.prio) ∧
    ∀ p : Int, (sortByPrioDesc out.afterA).filter (fun u => u.prio == p) =
      out.afterA.filter (fun u => u.prio == p) := by
  obtain ⟨-, hfound, -⟩ := schedule_inversion truthy ts n out h
  refine ⟨hfound, ?_, ?_, sortByPrioDesc_pairwise _,
    fun p => sortByPrioDesc_filter _ p⟩
  · intro e he
    have hf2 : (candidates out.afterA).find?
        (fun x => !(blockedBy out.afterA x)) = some e := by
      rw [← findSelected, ← hfound, he]
    obtain ⟨hp, l1, l2, heq, hall⟩ := find?_eq_some_split _ _ _ hf2
    constructor
    · have hb : blockedBy out.afterA e = false := by
        cases hbb : blockedBy out.afterA e
        · rfl
        · rw [hbb] at hp; simp at hp
      intro y hy
      simp only [blockedBy, List.any_eq_false] at hb
      exact Bool.eq_false_iff.mpr (hb y hy)
    · refine ⟨l1, l2, heq, ?_⟩
      intro x hx
      have hxf := hall x hx
      cases hbb : blockedBy out.afterA x
      · rw [hbb] at hxf; simp at hxf
      · rfl
  · intro hnone x hx
    have hf2 : (candidates out.afterA).find?
        (fun x => !(blockedBy out.afterA x)) = Option.none := by
      rw [← findSelected, ← hfound, hnone]
    have hxf := List.find?_eq_none.mp hf2 x hx
    cases hbb : blockedBy out.afterA x
    · exfalso
      apply hxf
      rw [hbb]
      rfl
    · rfl

/-- Claim C6, witness: a single posting thread; the find result of the
turn is the Phase-B selection on the post-Phase-A set. -/
theorem c6_amended_witness : c6wout.found = findSelected c6wout.afterA := by
  have h : schedule truthyStr [c6t2] 0 = Except.ok c6wout := by rfl
  exact (c6_amended_selection truthyStr [c6t2] 0 c6wout h).1

/-- Claim C6, counterexample to the claim as stated: thread `c6t1` blocks
"x" and is active at turn start, but its failed op's error is caught by
its body, which terminates during Phase A; the turn then selects "x",
violating the claimed ¬block(e) for every thread active at turn start. -/
theorem c6_counterexample :
    (schedule truthyStr [c6t1, c6t2] 0).map (fun o => o.found) =
      .ok (some "x") ∧
    c6t1.sync.halt "x" = true :=
  ⟨rfl, rfl⟩

/-! Lemmas about Phase C. -/

/-- Characterization of Phase C: the resumption log lists exactly the
matched threads (post contains the event or wait accepts it), once each,
in order, each resumed with the selected event; every cancellation stems
from a matched thread whose exec was running with that task id; and every
unmatched thread passes through to the output untouched. -/
theorem phaseC_log {E Err Op : Type} [BEq E] (sel : E) (ts : List (Thread E Err Op))
    (n n2 : Nat) (ts2 : List (Thread E Err Op)) (log : List (String × E))
    (canc : List (String × Nat))
    (h : phaseC sel ts n = .ok (ts2, n2, log, canc)) :
    log = (ts.filter fun t => t.sync.post.contains sel || t.sync.wait sel).map
        (fun t => (t.name, sel)) ∧
    (∀ nm tid, (nm, tid) ∈ canc → ∃ t ∈ ts, t.name = nm ∧
        t.sync.exec = .running tid ∧
        (t.sync.post.contains sel || t.sync.wait sel) = true) ∧
    (∀ t ∈ ts, (t.sync.post.contains sel || t.sync.wait sel) = false → t ∈ ts2) := by
  induction ts generalizing n n2 ts2 log canc with
  | nil =>
    simp only [phaseC] at h
    injection h with h
    simp only [Prod.mk.injEq] at h
    obtain ⟨rfl, rfl, rfl, rfl⟩ := h
    exact ⟨rfl, by simp, by simp⟩
  | cons t ts ih =>
    simp only [phaseC] at h
    split at h
    · -- matched thread
      rename_i hm
      split at h
      · -- body raises when advanced: contradicts the ok hypothesis
        simp at h
      · -- body terminates: thread dropped
        split at h
        · simp at h
        · rename_i rest nr logr cancr heq2
          injection h with h
          simp only [Prod.mk.injEq] at h
          obtain ⟨rfl, rfl, rfl, rfl⟩ := h
          obtain ⟨ihlog, ihcanc, ihpres⟩ := ih _ _ _ _ _ heq2
          refine ⟨?_, ?_, ?_⟩
          · simp [List.filter_cons, hm, ihlog]
          · intro nm tid hmem
            rcases List.mem_append.mp hmem with hin | hin
            · cases hx : t.sync.exec with
              | running tid2 =>
                rw [hx] at hin
                simp only [List.mem_singleton, Prod.mk.injEq] at hin
                obtain ⟨rfl, rfl⟩ := hin
                exact ⟨t, List.mem_cons_self t ts, rfl, hx, hm⟩
              | none => rw [hx] at hin; simp at hin
              | pending op => rw [hx] at hin; simp at hin
              | done res => rw [hx] at hin; simp at hin
            · obtain ⟨u, hu, h1, h2, h3⟩ := ihcanc nm tid hin
              exact ⟨u, List.mem_cons_of_mem t hu, h1, h2, h3⟩
          · intro u hu hum
            rcases List.mem_cons.mp hu with rfl | hu2
            · rw [hum] at hm; simp at hm
            · exact ihpres u hu2 hum
      · -- body yields again: thread continues with the new sync
        split at h
        · simp at h
        · rename_i rest nr logr cancr heq2
          injection h with h
          simp only [Prod.mk.injEq] at h
          obtain ⟨rfl, rfl, rfl, rfl⟩ := h
          obtain ⟨ihlog, ihcanc, ihpres⟩ := ih _ _ _ _ _ heq2
          refine ⟨?_, ?_, ?_⟩
          · simp [List.filter_cons, hm, ihlog]
          · intro nm tid hmem
            rcases List.mem_append.mp hmem with hin | hin
            · cases hx : t.sync.exec with
              | running tid2 =>
                rw [hx] at hin
                simp only [List.mem_singleton, Prod.mk.injEq] at hin
                obtain ⟨rfl, rfl⟩ := hin
                exact ⟨t, List.mem_cons_self t ts, rfl, hx, hm⟩
              | none => rw [hx] at hin; simp at hin
              | pending op => rw [hx] at hin; simp at hin
              | done res => rw [hx] at hin; simp at hin
            · obtain ⟨u, hu, h1, h2, h3⟩ := ihcanc nm tid hin
              exact ⟨u, List.mem_cons_of_mem t hu, h1, h2, h3⟩
          · intro u hu hum
            rcases List.mem_cons.mp hu with rfl | hu2
            · rw [hum] at hm; simp at hm
            · exact List.mem_cons_of_mem _ (ihpres u hu2 hum)
    · -- unmatched thread: passes through untouched
      rename_i hm
      split at h
      · simp at h
      · rename_i rest nr logr cancr heq2
        injection h with h
        simp only [Prod.mk.injEq] at h
        obtain ⟨rfl, rfl, rfl, rfl⟩ := h
        obtain ⟨ihlog, ihcanc, ihpres⟩ := ih _ _ _ _ _ heq2
        have hm2 : (t.sync.post.contains sel || t.sync.wait sel) = false := by
          cases hb : (t.sync.post.contains sel || t.sync.wait sel)
          · rfl
          · exact absurd hb hm
        refine ⟨?_, ?_, ?_⟩
        · simp [List.filter_cons, hm2, ihlog]
        · intro nm tid hmem
          obtain ⟨u, hu, h1, h2, h3⟩ := ihcanc nm tid hmem
          exact ⟨u, List.mem_cons_of_mem t hu, h1, h2, h3⟩
        · intro u hu hum
          rcases List.mem_cons.mp hu with rfl | hu2
          · exact List.mem_cons_self u rest
          · exact List.mem_cons_of_mem _ (ihpres u hu2 hum)

set_option maxHeartbeats 1000000 in
/-- Exact characterization of the Phase-C cancellation log: it holds one
entry per matched thread whose exec is running — the thread's name with
the running task id — in thread order, and nothing else.  Together with
the resumption log this says each matched running exec is halted in the
turn that resumes its thread.  In the definition of `phaseC` (as in the
source) the exec is overwritten to `none` before the body is resumed, so
the cancellation precedes the resumption. -/
theorem phaseC_canc {E Err Op : Type} [BEq E] (sel : E) (ts : List (Thread E Err Op))
    (n n2 : Nat) (ts2 : List (Thread E Err Op)) (log : List (String × E))
    (canc : List (String × Nat))
    (h : phaseC sel ts n = .ok (ts2, n2, log, canc)) :
    canc = (ts.filter fun t => t.sync.post.contains sel || t.sync.wait sel).filterMap
      (fun t => match t.sync.exec with
        | .running tid => some (t.name, tid)
        | _ => Option.none) := by
  induction ts generalizing n n2 ts2 log canc with
  | nil =>
    simp only [phaseC] at h
    injection h with h
    simp only [Prod.mk.injEq] at h
    obtain ⟨rfl, rfl, rfl, rfl⟩ := h
    rfl
  | cons t ts ih =>
    simp only [phaseC] at h
    split at h
    · -- matched thread
      rename_i hm
      split at h
      · -- body raises when advanced: contradicts the ok hypothesis
        simp at h
      · -- body terminates
        split at h
        · simp at h
        · rename_i rest nr logr cancr heq2
          injection h with h
          simp only [Prod.mk.injEq] at h
          obtain ⟨rfl, rfl, rfl, rfl⟩ := h
          have ihc := ih _ _ _ _ _ heq2
          cases hx : t.sync.exec with
          | running tid =>
            simp [List.filter_cons, hm, List.filterMap_cons, hx, ihc]
          | none => simp [List.filter_cons, hm, List.filterMap_cons, hx, ihc]
          | pending op => simp [List.filter_cons, hm, List.filterMap_cons, hx, ihc]
          | done res => simp [List.filter_cons, hm, List.filterMap_cons, hx, ihc]
      · -- body yields again
        split at h
        · simp at h
        · rename_i rest nr logr cancr heq2
          injection h with h
          simp only [Prod.mk.injEq] at h
          obtain ⟨rfl, rfl, rfl, rfl⟩ := h
          have ihc := ih _ _ _ _ _ heq2
          cases hx : t.sync.exec with
          | running tid =>
            simp [List.filter_cons, hm, List.filterMap_cons, hx, ihc]
          | none => simp [List.filter_cons, hm, List.filterMap_cons, hx, ihc]
          | pending op => simp [List.filter_cons, hm, List.filterMap_cons, hx, ihc]
          | done res => simp [List.filter_cons, hm, List.filterMap_cons, hx, ihc]
    · -- unmatched thread
      rename_i hm
      split at h
      · simp at h
      · rename_i rest nr logr cancr heq2
        injection h with h
        simp only [Prod.mk.injEq] at h
        obtain ⟨rfl, rfl, rfl, rfl⟩ := h
        have hm2 : (t.sync.post.contains sel || t.sync.wait sel) = false := by
          cases hb : (t.sync.post.contains sel || t.sync.wait sel)
          · rfl
          · exact absurd hb hm
        simp [List.filter_cons, hm2, ih _ _ _ _ _ heq2]

/-- Claim C7 (amended): in every turn that acts on a selected event e, the
threads resumed are exactly those of the post-Phase-A active set whose
sync at that point has e in its post list or satisfies wait(e) — each such
thread exactly once, in order, resumed with e, after cancelling its
running exec if any — and every thread matching neither condition is left
in place untouched.  Membership is judged on the Phase-C sync, not the
turn-start sync: a thread whose post list was rewritten by the Phase-A
harvest is judged by the rewritten list.  The cancellation log is pinned
exactly: it equals the matched threads with a running exec, so every
matched thread whose exec is running has that exec cancelled in the turn
(the definition halts the task and clears the exec before the body is
resumed, as the source does), and nothing else is cancelled. -/
theorem c7_amended_advance {E Err Op : Type} [BEq E] (truthy : E → Bool)
    (ts : List (Thread E Err Op)) (n : Nat) (out : ScheduleOut E Err Op) (e : E)
    (h : schedule truthy ts n = .ok out) (hf : out.found = some e)
    (htr : truthy e = true) :
    out.resumed = (out.afterA.filter fun t =>
        t.sync.post.contains e || t.sync.wait e).map (fun t => (t.name, e)) ∧
    (∀ nm tid, (nm, tid) ∈ out.canc → ∃ t ∈ out.afterA, t.name = nm ∧
        t.sync.exec = .running tid ∧
        (t.sync.post.contains e || t.sync.wait e) = true) ∧
    (∀ t ∈ out.afterA, (t.sync.post.contains e || t.sync.wait e) = false →
        t ∈ out.threads) ∧
    out.canc = (out.afterA.filter fun t =>
        t.sync.post.contains e || t.sync.wait e).filterMap
      (fun t => match t.sync.exec with
        | .running tid => some (t.name, tid)
        | _ => Option.none) ∧
    (∀ t ∈ out.afterA, (t.sync.post.contains e || t.sync.wait e) = true →
        ∀ tid, t.sync.exec = .running tid → (t.name, tid) ∈ out.canc) := by
  obtain ⟨-, -, hcase⟩ := schedule_inversion truthy ts n out h
  rcases hcase with ⟨e1, he1, ht1, hpc, -⟩ | ⟨-, -, -, -, -, hfalsy⟩
  · rw [hf] at he1
    injection he1 with he1
    subst he1
    obtain ⟨h1, h2, h3⟩ := phaseC_log e out.afterA out.tidA out.nextTid
      out.threads out.resumed out.canc hpc
    have hcancEq := phaseC_canc e out.afterA out.tidA out.nextTid out.threads
      out.resumed out.canc hpc
    refine ⟨h1, h2, h3, hcancEq, ?_⟩
    intro t ht hmatch tid hx
    rw [hcancEq]
    exact List.mem_filterMap.mpr
      ⟨t, List.mem_filter.mpr ⟨ht, hmatch⟩, by rw [hx]⟩
  · rw [hfalsy e hf] at htr
    exact absurd htr (by simp)

/-- Claim C7, witness: a single thread posting "e" shows the resumption
log is exactly the matched-thread list; and in the turn where thread "A"
(waiting on "x", op running as task 0) is matched by the selected "x",
"A"'s running exec is cancelled. -/
theorem c7_amended_witness :
    (c7wout.resumed = (c7wout.afterA.filter fun t =>
        t.sync.post.contains "e" || t.sync.wait "e").map (fun t => (t.name, "e"))) ∧
    ("A", (0 : Nat)) ∈ c8out.canc := by
  have h1 : schedule truthyStr [c7t2] 0 = Except.ok c7wout := by rfl
  have h2 : schedule truthyStr [c8tA, c8tB] 1 = Except.ok c8out := by rfl
  refine ⟨(c7_amended_advance truthyStr [c7t2] 0 c7wout "e" h1 rfl rfl).1, ?_⟩
  exact (c7_amended_advance truthyStr [c8tA, c8tB] 1 c8out "x" h2 rfl rfl).2.2.2.2
    c8tA (List.mem_cons_self c8tA [c8tB]) (by decide) 0 rfl

/-- Claim C7, counterexample to the claim as stated: at turn start, thread
`c7t` (named "t") is active and has "e" in its post list, but its exec is
`done(ok "v")`, so Phase A overwrites its post list with ["v"]; the turn
then selects "e" (posted by `c7t2`) and resumes only "t2" — "t" is never
advanced in that turn although it was active at turn start with "e" in its
post list. -/
theorem c7_counterexample :
    (schedule truthyStr [c7t2, c7t] 0).map (fun o => (o.found, o.resumed)) =
      .ok (some "e", [("t2", "e")]) ∧
    c7t.sync.post = ["e"] ∧ c7t.name = "t" ∧
    ("t", "e") ∉ [(("t2" : String), ("e" : String))] :=
  ⟨rfl, rfl, rfl, by decide⟩

/-- Membership in the running task ids of a cons. -/
theorem mem_runningTids_cons {E Err Op : Type} (t : Thread E Err Op)
    (ts : List (Thread E Err Op)) (a : Nat) :
    a ∈ runningTids (t :: ts) ↔
      t.sync.exec = .running a ∨ a ∈ runningTids ts := by
  cases hx : t.sync.exec with
  | running tid => simp [runningTids, List.filterMap_cons, hx, eq_comm]
  | none => simp [runningTids, List.filterMap_cons, hx]
  | pending op => simp [runningTids, List.filterMap_cons, hx]
  | done res => simp [runningTids, List.filterMap_cons, hx]

/-- GoodBody inversion along a yield of `next`. -/
theorem goodBody_onNext {E Err Op : Type} {b : Body E Err Op} {e : E}
    {s : Sync E Err Op} {k : Body E Err Op}
    (hg : GoodBody E Err Op b) (h : b.onNext e = .yields s k) :
    notStartedExec s.exec = true ∧ GoodBody E Err Op k := by
  cases hg with
  | mk f g hf hgg =>
    have hr := hf e
    rw [show (Body.mk f g).onNext e = f e from rfl] at h
    rw [h] at hr
    cases hr with
    | yields s k hs hk => exact ⟨hs, hk⟩

/-- GoodBody inversion along a yield of `throw`. -/
theorem goodBody_onThrow {E Err Op : Type} {b : Body E Err Op} {er : Err}
    {s : Sync E Err Op} {k : Body E Err Op}
    (hg : GoodBody E Err Op b) (h : b.onThrow er = .yields s k) :
    notStartedExec s.exec = true ∧ GoodBody E Err Op k := by
  cases hg with
  | mk f g hf hgg =>
    have hr := hgg er
    rw [show (Body.mk f g).onThrow er = g er from rfl] at h
    rw [h] at hr
    cases hr with
    | yields s k hs hk => exact ⟨hs, hk⟩

/-- GoodThreads decomposition at a cons. -/
theorem goodThreads_cons {E Err Op : Type} {t : Thread E Err Op}
    {ts : List (Thread E Err Op)} :
    GoodThreads (t :: ts) ↔ GoodBody E Err Op t.proc ∧ GoodThreads ts := by
  simp [GoodThreads, List.forall_mem_cons]

set_option maxHeartbeats 1000000 in
theorem phaseA_inv {E Err Op : Type} (ts : List (Thread E Err Op)) (n n1 : Nat)
    (ts1 : List (Thread E Err Op)) (w : Bool)
    (h : phaseA ts n = .ok (ts1, n1, w))
    (hb : ∀ a ∈ runningTids ts, a < n)
    (hnd : (runningTids ts).Nodup)
    (hg : GoodThreads ts) :
    n ≤ n1 ∧ (∀ a ∈ runningTids ts1, a < n1) ∧ (runningTids ts1).Nodup ∧
    GoodThreads ts1 ∧
    (∀ a ∈ runningTids ts1, a ∈ runningTids ts ∨ n ≤ a) := by
  induction ts generalizing n n1 ts1 w with
  | nil =>
    simp only [phaseA] at h
    injection h with h
    simp only [Prod.mk.injEq] at h
    obtain ⟨rfl, rfl, rfl⟩ := h
    exact ⟨le_refl n, hb, hnd, hg, fun a ha => Or.inl ha⟩
  | cons t ts ih =>
    obtain ⟨hgt, hgts⟩ := goodThreads_cons.mp hg
    simp only [phaseA] at h
    split at h
    · -- completed op at the head
      rename_i res heq
      have hrt : runningTids (t :: ts) = runningTids ts := by
        simp [runningTids, List.filterMap_cons, heq]
      rw [hrt] at hb hnd
      cases res with
      | ok v =>
        simp only at h
        split at h
        · simp at h
        · rename_i rest n2 w2 heq2
          injection h with h
          simp only [Prod.mk.injEq] at h
          obtain ⟨rfl, rfl, rfl⟩ := h
          obtain ⟨ih1, ih2, ih3, ih4, ih5⟩ := ih _ _ _ _ heq2 hb hnd hgts
          have hhead : runningTids
              ({ name := t.name, prio := t.prio, proc := t.proc,
                 sync := { post := [v], wait := t.sync.wait, halt := t.sync.halt,
                           exec := Exec.none } } :: rest) = runningTids rest := by
            simp [runningTids, List.filterMap_cons]
          refine ⟨ih1, ?_, ?_, goodThreads_cons.mpr ⟨hgt, ih4⟩, ?_⟩
          · rw [hhead]; exact ih2
          · rw [hhead]; exact ih3
          · rw [hhead]
            intro a ha
            rcases ih5 a ha with hin | hge
            · exact Or.inl (by rw [hrt]; exact hin)
            · exact Or.inr hge
      | error e =>
        simp only at h
        split at h
        · simp at h
        · -- body caught and terminated: thread dropped
          split at h
          · simp at h
          · rename_i rest n2 w2 heq3
            injection h with h
            simp only [Prod.mk.injEq] at h
            obtain ⟨rfl, rfl, rfl⟩ := h
            obtain ⟨ih1, ih2, ih3, ih4, ih5⟩ := ih _ _ _ _ heq3 hb hnd hgts
            refine ⟨ih1, ih2, ih3, ih4, ?_⟩
            intro a ha
            rcases ih5 a ha with hin | hge
            · exact Or.inl (by rw [hrt]; exact hin)
            · exact Or.inr hge
        · -- body caught and yielded a fresh sync
          rename_i s k heq2
          obtain ⟨hse, hk⟩ := goodBody_onThrow hgt heq2
          cases hs : s.exec with
          | none =>
            simp only [startThreadOperationIfNecessary, hs] at h
            split at h
            · simp at h
            · rename_i rest n2 w2 heq3
              injection h with h
              simp only [Prod.mk.injEq] at h
              obtain ⟨rfl, rfl, rfl⟩ := h
              obtain ⟨ih1, ih2, ih3, ih4, ih5⟩ := ih _ _ _ _ heq3 hb hnd hgts
              have hhead : runningTids
                  ({ name := t.name, prio := t.prio, proc := k, sync := s } :: rest)
                    = runningTids rest := by
                simp [runningTids, List.filterMap_cons, hs]
              refine ⟨ih1, ?_, ?_, goodThreads_cons.mpr ⟨hk, ih4⟩, ?_⟩
              · rw [hhead]; exact ih2
              · rw [hhead]; exact ih3
              · rw [hhead]
                intro a ha
                rcases ih5 a ha with hin | hge
                · exact Or.inl (by rw [hrt]; exact hin)
                · exact Or.inr hge
          | pending op =>
            simp only [startThreadOperationIfNecessary, hs] at h
            split at h
            · simp at h
            · rename_i rest n2 w2 heq3
              injection h with h
              simp only [Prod.mk.injEq] at h
              obtain ⟨rfl, rfl, rfl⟩ := h
              have hb2 : ∀ a ∈ runningTids ts, a < n + 1 :=
                fun a ha => Nat.lt_succ_of_lt (hb a ha)
              obtain ⟨ih1, ih2, ih3, ih4, ih5⟩ := ih _ _ _ _ heq3 hb2 hnd hgts
              have hhead : runningTids
                  ({ name := t.name, prio := t.prio, proc := k,
                     sync := { post := s.post, wait := s.wait, halt := s.halt,
                               exec := Exec.running n } } :: rest)
                    = n :: runningTids rest := by
                simp [runningTids, List.filterMap_cons]
              refine ⟨Nat.le_of_succ_le ih1, ?_, ?_, goodThreads_cons.mpr ⟨hk, ih4⟩, ?_⟩
              · rw [hhead]
                intro a ha
                rcases List.mem_cons.mp ha with rfl | har
                · omega
                · exact ih2 a har
              · rw [hhead]
                refine List.Nodup.cons ?_ ih3
                intro hmem
                rcases ih5 n hmem with hin | hge
                · have := hb n hin
                  omega
                · omega
              · rw [hhead]
                intro a ha
                rcases List.mem_cons.mp ha with rfl | har
                · exact Or.inr (le_refl a)
                · rcases ih5 a har with hin | hge
                  · exact Or.inl (by rw [hrt]; exact hin)
                  · exact Or.inr (by omega)
          | running tid => rw [hs] at hse; simp [notStartedExec] at hse
          | done res2 => rw [hs] at hse; simp [notStartedExec] at hse
    · -- head has no completed op: passes through
      rename_i x hne
      split at h
      · simp at h
      · rename_i rest n2 w2 heq2
        injection h with h
        simp only [Prod.mk.injEq] at h
        obtain ⟨rfl, rfl, rfl⟩ := h
        have hbts : ∀ a ∈ runningTids ts, a < n :=
          fun a ha => hb a ((mem_runningTids_cons t ts a).mpr (Or.inr ha))
        have hndts : (runningTids ts).Nodup := by
          cases hx : t.sync.exec with
          | running tid =>
            rw [show runningTids (t :: ts) = tid :: runningTids ts from by
              simp [runningTids, List.filterMap_cons, hx]] at hnd
            exact hnd.of_cons
          | none =>
            rwa [show runningTids (t :: ts) = runningTids ts from by
              simp [runningTids, List.filterMap_cons, hx]] at hnd
          | pending op =>
            rwa [show runningTids (t :: ts) = runningTids ts from by
              simp [runningTids, List.filterMap_cons, hx]] at hnd
          | done res => exact absurd hx (hne res)
        obtain ⟨ih1, ih2, ih3, ih4, ih5⟩ := ih _ _ _ _ heq2 hbts hndts hgts
        refine ⟨ih1, ?_, ?_, goodThreads_cons.mpr ⟨hgt, ih4⟩, ?_⟩
        · intro a ha
          rcases (mem_runningTids_cons t rest a).mp ha with hxa | har
          · exact lt_of_lt_of_le
              (hb a ((mem_runningTids_cons t ts a).mpr (Or.inl hxa))) ih1
          · exact ih2 a har
        · cases hx : t.sync.exec with
          | running tid =>
            rw [show runningTids (t :: rest) = tid :: runningTids rest from by
              simp [runningTids, List.filterMap_cons, hx]]
            refine List.Nodup.cons ?_ ih3
            intro hmem
            rcases ih5 tid hmem with hin | hge
            · rw [show runningTids (t :: ts) = tid :: runningTids ts from by
                simp [runningTids, List.filterMap_cons, hx]] at hnd
              exact (List.nodup_cons.mp hnd).1 hin
            · have := hb tid ((mem_runningTids_cons t ts tid).mpr (Or.inl hx))
              omega
          | none =>
            rw [show runningTids (t :: rest) = runningTids rest from by
              simp [runningTids, List.filterMap_cons, hx]]
            exact ih3
          | pending op =>
            rw [show runningTids (t :: rest) = runningTids rest from by
              simp [runningTids, List.filterMap_cons, hx]]
            exact ih3
          | done res => exact absurd hx (hne res)
        · intro a ha
          rcases (mem_runningTids_cons t rest a).mp ha with hxa | har
          · exact Or.inl ((mem_runningTids_cons t ts a).mpr (Or.inl hxa))
          · rcases ih5 a har with hin | hge
            · exact Or.inl ((mem_runningTids_cons t ts a).mpr (Or.inr hin))
            · exact Or.inr hge

set_option maxHeartbeats 1600000 in
theorem phaseC_inv {E Err Op : Type} [BEq E] (sel : E) (ts : List (Thread E Err Op))
    (n n2 : Nat) (ts2 : List (Thread E Err Op)) (log : List (String × E))
    (canc : List (String × Nat))
    (h : phaseC sel ts n = .ok (ts2, n2, log, canc))
    (hb : ∀ a ∈ runningTids ts, a < n)
    (hnd : (runningTids ts).Nodup)
    (hg : GoodThreads ts) :
    n ≤ n2 ∧ (∀ a ∈ runningTids ts2, a < n2) ∧ (runningTids ts2).Nodup ∧
    GoodThreads ts2 ∧
    (∀ a ∈ runningTids ts2, a ∈ runningTids ts ∨ n ≤ a) ∧
    (∀ nm tid, (nm, tid) ∈ canc →
      tid ∈ runningTids ts ∧ tid ∉ runningTids ts2) := by
  induction ts generalizing n n2 ts2 log canc with
  | nil =>
    simp only [phaseC] at h
    injection h with h
    simp only [Prod.mk.injEq] at h
    obtain ⟨rfl, rfl, rfl, rfl⟩ := h
    exact ⟨le_refl n, hb, hnd, hg, fun a ha => Or.inl ha, by simp⟩
  | cons t ts ih =>
    obtain ⟨hgt, hgts⟩ := goodThreads_cons.mp hg
    simp only [phaseC] at h
    split at h
    · -- matched thread
      rename_i hm
      cases hx : t.sync.exec with
      | running tid0 =>
        rw [hx] at h
        simp only at h
        have hrt : runningTids (t :: ts) = tid0 :: runningTids ts := by
          simp [runningTids, List.filterMap_cons, hx]
        rw [hrt] at hb hnd
        have hb0 : tid0 < n := hb tid0 (List.mem_cons_self tid0 _)
        have hbts : ∀ a ∈ runningTids ts, a < n :=
          fun a ha => hb a (List.mem_cons_of_mem tid0 ha)
        have hnd0 : tid0 ∉ runningTids ts := (List.nodup_cons.mp hnd).1
        have hndts : (runningTids ts).Nodup := (List.nodup_cons.mp hnd).2
        split at h
        · simp at h
        · -- cancelled, then the body terminated
          split at h
          · simp at h
          · rename_i rest nr logr cancr heq2
            injection h with h
            simp only [Prod.mk.injEq] at h
            obtain ⟨rfl, rfl, rfl, rfl⟩ := h
            obtain ⟨ih1, ih2, ih3, ih4, ih5, ih6⟩ := ih _ _ _ _ _ heq2 hbts hndts hgts
            refine ⟨ih1, ih2, ih3, ih4, ?_, ?_⟩
            · intro a ha
              rcases ih5 a ha with hin | hge
              · exact Or.inl (by rw [hrt]; exact List.mem_cons_of_mem tid0 hin)
              · exact Or.inr hge
            · intro nm tid hmem
              rcases List.mem_cons.mp hmem with heqp | hmem2
              · injection heqp with h1 h2
                rw [h2]
                constructor
                · rw [hrt]; exact List.mem_cons_self tid0 _
                · intro hin
                  rcases ih5 tid0 hin with hin2 | hge
                  · exact hnd0 hin2
                  · omega
              · obtain ⟨hin, hout⟩ := ih6 nm tid hmem2
                exact ⟨by rw [hrt]; exact List.mem_cons_of_mem tid0 hin, hout⟩
        · -- cancelled, then the body yielded a fresh sync
          rename_i s k heq2
          obtain ⟨hse, hk⟩ := goodBody_onNext hgt heq2
          cases hs : s.exec with
          | none =>
            simp only [startThreadOperationIfNecessary, hs] at h
            split at h
            · simp at h
            · rename_i rest nr logr cancr heq3
              injection h with h
              simp only [Prod.mk.injEq] at h
              obtain ⟨rfl, rfl, rfl, rfl⟩ := h
              obtain ⟨ih1, ih2, ih3, ih4, ih5, ih6⟩ := ih _ _ _ _ _ heq3 hbts hndts hgts
              have hhead : runningTids
                  ({ name := t.name, prio := t.prio, proc := k, sync := s } :: rest)
                    = runningTids rest := by
                simp [runningTids, List.filterMap_cons, hs]
              refine ⟨ih1, ?_, ?_, goodThreads_cons.mpr ⟨hk, ih4⟩, ?_, ?_⟩
              · rw [hhead]; exact ih2
              · rw [hhead]; exact ih3
              · rw [hhead]
                intro a ha
                rcases ih5 a ha with hin | hge
                · exact Or.inl (by rw [hrt]; exact List.mem_cons_of_mem tid0 hin)
                · exact Or.inr hge
              · intro nm tid hmem
                rcases List.mem_cons.mp hmem with heqp | hmem2
                · injection heqp with h1 h2
                  rw [h2]
                  refine ⟨by rw [hrt]; exact List.mem_cons_self tid0 _, ?_⟩
                  rw [hhead]
                  intro hin
                  rcases ih5 tid0 hin with hin2 | hge
                  · exact hnd0 hin2
                  · omega
                · obtain ⟨hin, hout⟩ := ih6 nm tid hmem2
                  refine ⟨by rw [hrt]; exact List.mem_cons_of_mem tid0 hin, ?_⟩
                  rw [hhead]
                  exact hout
          | pending op =>
            simp only [startThreadOperationIfNecessary, hs] at h
            split at h
            · simp at h
            · rename_i rest nr logr cancr heq3
              injection h with h
              simp only [Prod.mk.injEq] at h
              obtain ⟨rfl, rfl, rfl, rfl⟩ := h
              have hb2 : ∀ a ∈ runningTids ts, a < n + 1 :=
                fun a ha => Nat.lt_succ_of_lt (hbts a ha)
              obtain ⟨ih1, ih2, ih3, ih4, ih5, ih6⟩ := ih _ _ _ _ _ heq3 hb2 hndts hgts
              have hhead : runningTids
                  ({ name := t.name, prio := t.prio, proc := k,
                     sync := { post := s.post, wait := s.wait, halt := s.halt,
                               exec := Exec.running n } } :: rest)
                    = n :: runningTids rest := by
                simp [runningTids, List.filterMap_cons]
              refine ⟨Nat.le_of_succ_le ih1, ?_, ?_,
                goodThreads_cons.mpr ⟨hk, ih4⟩, ?_, ?_⟩
              · rw [hhead]
                intro a ha
                rcases List.mem_cons.mp ha with rfl | har
                · omega
                · exact ih2 a har
              · rw [hhead]
                refine List.Nodup.cons ?_ ih3
                intro hmem
                rcases ih5 n hmem with hin | hge
                · have := hbts n hin
                  omega
                · omega
              · rw [hhead]
                intro a ha
                rcases List.mem_cons.mp ha with rfl | har
                · exact Or.inr (le_refl a)
                · rcases ih5 a har with hin | hge
                  · exact Or.inl (by rw [hrt]; exact List.mem_cons_of_mem tid0 hin)
                  · exact Or.inr (by omega)
              · intro nm tid hmem
                rcases List.mem_cons.mp hmem with heqp | hmem2
                · injection heqp with h1 h2
                  rw [h2]
                  refine ⟨by rw [hrt]; exact List.mem_cons_self tid0 _, ?_⟩
                  rw [hhead]
                  intro hin
                  rcases List.mem_cons.mp hin with rfl | hin2
                  · omega
                  · rcases ih5 tid0 hin2 with hin3 | hge
                    · exact hnd0 hin3
                    · omega
                · obtain ⟨hin, hout⟩ := ih6 nm tid hmem2
                  refine ⟨by rw [hrt]; exact List.mem_cons_of_mem tid0 hin, ?_⟩
                  rw [hhead]
                  intro hin2
                  rcases List.mem_cons.mp hin2 with rfl | hin3
                  · have := hbts tid hin
                    omega
                  · exact hout hin3
          | running tid1 => rw [hs] at hse; simp [notStartedExec] at hse
          | done res2 => rw [hs] at hse; simp [notStartedExec] at hse
      | none =>
        rw [hx] at h
        simp only at h
        have hrt : runningTids (t :: ts) = runningTids ts := by
          simp [runningTids, List.filterMap_cons, hx]
        rw [hrt] at hb hnd
        split at h
        · simp at h
        · split at h
          · simp at h
          · rename_i rest nr logr cancr heq2
            injection h with h
            simp only [Prod.mk.injEq] at h
            obtain ⟨rfl, rfl, rfl, rfl⟩ := h
            obtain ⟨ih1, ih2, ih3, ih4, ih5, ih6⟩ := ih _ _ _ _ _ heq2 hb hnd hgts
            refine ⟨ih1, ih2, ih3, ih4, ?_, ?_⟩
            · intro a ha
              rcases ih5 a ha with hin | hge
              · exact Or.inl (by rw [hrt]; exact hin)
              · exact Or.inr hge
            · intro nm tid hmem
              simp only [List.nil_append] at hmem
              obtain ⟨hin, hout⟩ := ih6 nm tid hmem
              exact ⟨by rw [hrt]; exact hin, hout⟩
        · rename_i s k heq2
          obtain ⟨hse, hk⟩ := goodBody_onNext hgt heq2
          cases hs : s.exec with
          | none =>
            simp only [startThreadOperationIfNecessary, hs] at h
            split at h
            · simp at h
            · rename_i rest nr logr cancr heq3
              injection h with h
              simp only [Prod.mk.injEq] at h
              obtain ⟨rfl, rfl, rfl, rfl⟩ := h
              obtain ⟨ih1, ih2, ih3, ih4, ih5, ih6⟩ := ih _ _ _ _ _ heq3 hb hnd hgts
              have hhead : runningTids
                  ({ name := t.name, prio := t.prio, proc := k, sync := s } :: rest)
                    = runningTids rest := by
                simp [runningTids, List.filterMap_cons, hs]
              refine ⟨ih1, ?_, ?_, goodThreads_cons.mpr ⟨hk, ih4⟩, ?_, ?_⟩
              · rw [hhead]; exact ih2
              · rw [hhead]; exact ih3
              · rw [hhead]
                intro a ha
                rcases ih5 a ha with hin | hge
                · exact Or.inl (by rw [hrt]; exact hin)
                · exact Or.inr hge
              · intro nm tid hmem
                simp only [List.nil_append] at hmem
                obtain ⟨hin, hout⟩ := ih6 nm tid hmem
                refine ⟨by rw [hrt]; exact hin, ?_⟩
                rw [hhead]
                exact hout
          | pending op =>
            simp only [startThreadOperationIfNecessary, hs] at h
            split at h
            · simp at h
            · rename_i rest nr logr cancr heq3
              injection h with h
              simp only [Prod.mk.injEq] at h
              obtain ⟨rfl, rfl, rfl, rfl⟩ := h
              have hb2 : ∀ a ∈ runningTids ts, a < n + 1 :=
                fun a ha => Nat.lt_succ_of_lt (hb a ha)
              obtain ⟨ih1, ih2, ih3, ih4, ih5, ih6⟩ := ih _ _ _ _ _ heq3 hb2 hnd hgts
              have hhead : runningTids
                  ({ name := t.name, prio := t.prio, proc := k,
                     sync := { post := s.post, wait := s.wait, halt := s.halt,
                               exec := Exec.running n } } :: rest)
                    = n :: runningTids rest := by
                simp [runningTids, List.filterMap_cons]
              refine ⟨Nat.le_of_succ_le ih1, ?_, ?_,
                goodThreads_cons.mpr ⟨hk, ih4⟩, ?_, ?_⟩
              · rw [hhead]
                intro a ha
                rcases List.mem_cons.mp ha with rfl | har
                · omega
                · exact ih2 a har
              · rw [hhead]
                refine List.Nodup.cons ?_ ih3
                intro hmem
                rcases ih5 n hmem with hin | hge
                · have := hb n hin
                  omega
                · omega
              · rw [hhead]
                intro a ha
                rcases List.mem_cons.mp ha with rfl | har
                · exact Or.inr (le_refl a)
                · rcases ih5 a har with hin | hge
                  · exact Or.inl (by rw [hrt]; exact hin)
                  · exact Or.inr (by omega)
              · intro nm tid hmem
                simp only [List.nil_append] at hmem
                obtain ⟨hin, hout⟩ := ih6 nm tid hmem
                refine ⟨by rw [hrt]; exact hin, ?_⟩
                rw [hhead]
                intro hin2
                rcases List.mem_cons.mp hin2 with rfl | hin3
                · have := hb tid hin
                  omega
                · exact hout hin3
          | running tid1 => rw [hs] at hse; simp [notStartedExec] at hse
          | done res2 => rw [hs] at hse; simp [notStartedExec] at hse
      | pending op0 =>
        rw [hx] at h
        simp only at h
        have hrt : runningTids (t :: ts) = runningTids ts := by
          simp [runningTids, List.filterMap_cons, hx]
        rw [hrt] at hb hnd
        split at h
        · simp at h
        · split at h
          · simp at h
          · rename_i rest nr logr cancr heq2
            injection h with h
            simp only [Prod.mk.injEq] at h
            obtain ⟨rfl, rfl, rfl, rfl⟩ := h
            obtain ⟨ih1, ih2, ih3, ih4, ih5, ih6⟩ := ih _ _ _ _ _ heq2 hb hnd hgts
            refine ⟨ih1, ih2, ih3, ih4, ?_, ?_⟩
            · intro a ha
              rcases ih5 a ha with hin | hge
              · exact Or.inl (by rw [hrt]; exact hin)
              · exact Or.inr hge
            · intro nm tid hmem
              simp only [List.nil_append] at hmem
              obtain ⟨hin, hout⟩ := ih6 nm tid hmem
              exact ⟨by rw [hrt]; exact hin, hout⟩
        · rename_i s k heq2
          obtain ⟨hse, hk⟩ := goodBody_onNext hgt heq2
          cases hs : s.exec with
          | none =>
            simp only [startThreadOperationIfNecessary, hs] at h
            split at h
            · simp at h
            · rename_i rest nr logr cancr heq3
              injection h with h
              simp only [Prod.mk.injEq] at h
              obtain ⟨rfl, rfl, rfl, rfl⟩ := h
              obtain ⟨ih1, ih2, ih3, ih4, ih5, ih6⟩ := ih _ _ _ _ _ heq3 hb hnd hgts
              have hhead : runningTids
                  ({ name := t.name, prio := t.prio, proc := k, sync := s } :: rest)
                    = runningTids rest := by
                simp [runningTids, List.filterMap_cons, hs]
              refine ⟨ih1, ?_, ?_, goodThreads_cons.mpr ⟨hk, ih4⟩, ?_, ?_⟩
              · rw [hhead]; exact ih2
              · rw [hhead]; exact ih3
              · rw [hhead]
                intro a ha
                rcases ih5 a ha with hin | hge
                · exact Or.inl (by rw [hrt]; exact hin)
                · exact Or.inr hge
              · intro nm tid hmem
                simp only [List.nil_append] at hmem
                obtain ⟨hin, hout⟩ := ih6 nm tid hmem
                refine ⟨by rw [hrt]; exact hin, ?_⟩
                rw [hhead]
                exact hout
          | pending op =>
            simp only [startThreadOperationIfNecessary, hs] at h
            split at h
            · simp at h
            · rename_i rest nr logr cancr heq3
              injection h with h
              simp only [Prod.mk.injEq] at h
              obtain ⟨rfl, rfl, rfl, rfl⟩ := h
              have hb2 : ∀ a ∈ runningTids ts, a < n + 1 :=
                fun a ha => Nat.lt_succ_of_lt (hb a ha)
              obtain ⟨ih1, ih2, ih3, ih4, ih5, ih6⟩ := ih _ _ _ _ _ heq3 hb2 hnd hgts
              have hhead : runningTids
                  ({ name := t.name, prio := t.prio, proc := k,
                     sync := { post := s.post, wait := s.wait, halt := s.halt,
                               exec := Exec.running n } } :: rest)
                    = n :: runningTids rest := by
                simp [runningTids, List.filterMap_cons]
              refine ⟨Nat.le_of_succ_le ih1, ?_, ?_,
                goodThreads_cons.mpr ⟨hk, ih4⟩, ?_, ?_⟩
              · rw [hhead]
                intro a ha
                rcases List.mem_cons.mp ha with rfl | har
                · omega
                · exact ih2 a har
              · rw [hhead]
                refine List.Nodup.cons ?_ ih3
                intro hmem
                rcases ih5 n hmem with hin | hge
                · have := hb n hin
                  omega
                · omega
              · rw [hhead]
                intro a ha
                rcases List.mem_cons.mp ha with rfl | har
                · exact Or.inr (le_refl a)
                · rcases ih5 a har with hin | hge
                  · exact Or.inl (by rw [hrt]; exact hin)
                  · exact Or.inr (by omega)
              · intro nm tid hmem
                simp only [List.nil_append] at hmem
                obtain ⟨hin, hout⟩ := ih6 nm tid hmem
                refine ⟨by rw [hrt]; exact hin, ?_⟩
                rw [hhead]
                intro hin2
                rcases List.mem_cons.mp hin2 with rfl | hin3
                · have := hb tid hin
                  omega
                · exact hout hin3
          | running tid1 => rw [hs] at hse; simp [notStartedExec] at hse
          | done res2 => rw [hs] at hse; simp [notStartedExec] at hse
      | done res0 =>
        rw [hx] at h
        simp only at h
        have hrt : runningTids (t :: ts) = runningTids ts := by
          simp [runningTids, List.filterMap_cons, hx]
        rw [hrt] at hb hnd
        split at h
        · simp at h
        · split at h
          · simp at h
          · rename_i rest nr logr cancr heq2
            injection h with h
            simp only [Prod.mk.injEq] at h
            obtain ⟨rfl, rfl, rfl, rfl⟩ := h
            obtain ⟨ih1, ih2, ih3, ih4, ih5, ih6⟩ := ih _ _ _ _ _ heq2 hb hnd hgts
            refine ⟨ih1, ih2, ih3, ih4, ?_, ?_⟩
            · intro a ha
              rcases ih5 a ha with hin | hge
              · exact Or.inl (by rw [hrt]; exact hin)
              · exact Or.inr hge
            · intro nm tid hmem
              simp only [List.nil_append] at hmem
              obtain ⟨hin, hout⟩ := ih6 nm tid hmem
              exact ⟨by rw [hrt]; exact hin, hout⟩
        · rename_i s k heq2
          obtain ⟨hse, hk⟩ := goodBody_onNext hgt heq2
          cases hs : s.exec with
          | none =>
            simp only [startThreadOperationIfNecessary, hs] at h
            split at h
            · simp at h
            · rename_i rest nr logr cancr heq3
              injection h with h
              simp only [Prod.mk.injEq] at h
              obtain ⟨rfl, rfl, rfl, rfl⟩ := h
              obtain ⟨ih1, ih2, ih3, ih4, ih5, ih6⟩ := ih _ _ _ _ _ heq3 hb hnd hgts
              have hhead : runningTids
                  ({ name := t.name, prio := t.prio, proc := k, sync := s } :: rest)
                    = runningTids rest := by
                simp [runningTids, List.filterMap_cons, hs]
              refine ⟨ih1, ?_, ?_, goodThreads_cons.mpr ⟨hk, ih4⟩, ?_, ?_⟩
              · rw [hhead]; exact ih2
              · rw [hhead]; exact ih3
              · rw [hhead]
                intro a ha
                rcases ih5 a ha with hin | hge
                · exact Or.inl (by rw [hrt]; exact hin)
                · exact Or.inr hge
              · intro nm tid hmem
                simp only [List.nil_append] at hmem
                obtain ⟨hin, hout⟩ := ih6 nm tid hmem
                refine ⟨by rw [hrt]; exact hin, ?_⟩
                rw [hhead]
                exact hout
          | pending op =>
            simp only [startThreadOperationIfNecessary, hs] at h
            split at h
            · simp at h
            · rename_i rest nr logr cancr heq3
              injection h with h
              simp only [Prod.mk.injEq] at h
              obtain ⟨rfl, rfl, rfl, rfl⟩ := h
              have hb2 : ∀ a ∈ runningTids ts, a < n + 1 :=
                fun a ha => Nat.lt_succ_of_lt (hb a ha)
              obtain ⟨ih1, ih2, ih3, ih4, ih5, ih6⟩ := ih _ _ _ _ _ heq3 hb2 hnd hgts
              have hhead : runningTids
                  ({ name := t.name, prio := t.prio, proc := k,
                     sync := { post := s.post, wait := s.wait, halt := s.halt,
                               exec := Exec.running n } } :: rest)
                    = n :: runningTids rest := by
                simp [runningTids, List.filterMap_cons]
              refine ⟨Nat.le_of_succ_le ih1, ?_, ?_,
                goodThreads_cons.mpr ⟨hk, ih4⟩, ?_, ?_⟩
              · rw [hhead]
                intro a ha
                rcases List.mem_cons.mp ha with rfl | har
                · omega
                · exact ih2 a har
              · rw [hhead]
                refine List.Nodup.cons ?_ ih3
                intro hmem
                rcases ih5 n hmem with hin | hge
                · have := hb n hin
                  omega
                · omega
              · rw [hhead]
                intro a ha
                rcases List.mem_cons.mp ha with rfl | har
                · exact Or.inr (le_refl a)
                · rcases ih5 a har with hin | hge
                  · exact Or.inl (by rw [hrt]; exact hin)
                  · exact Or.inr (by omega)
              · intro nm tid hmem
                simp only [List.nil_append] at hmem
                obtain ⟨hin, hout⟩ := ih6 nm tid hmem
                refine ⟨by rw [hrt]; exact hin, ?_⟩
                rw [hhead]
                intro hin2
                rcases List.mem_cons.mp hin2 with rfl | hin3
                · have := hb tid hin
                  omega
                · exact hout hin3
          | running tid1 => rw [hs] at hse; simp [notStartedExec] at hse
          | done res2 => rw [hs] at hse; simp [notStartedExec] at hse
    · -- unmatched thread: passes through untouched
      rename_i hm
      split at h
      · simp at h
      · rename_i rest nr logr cancr heq2
        injection h with h
        simp only [Prod.mk.injEq] at h
        obtain ⟨rfl, rfl, rfl, rfl⟩ := h
        have hbts : ∀ a ∈ runningTids ts, a < n :=
          fun a ha => hb a ((mem_runningTids_cons t ts a).mpr (Or.inr ha))
        have hndts : (runningTids ts).Nodup := by
          cases hx : t.sync.exec with
          | running tid =>
            rw [show runningTids (t :: ts) = tid :: runningTids ts from by
              simp [runningTids, List.filterMap_cons, hx]] at hnd
            exact hnd.of_cons
          | none =>
            rwa [show runningTids (t :: ts) = runningTids ts from by
              simp [runningTids, List.filterMap_cons, hx]] at hnd
          | pending op =>
            rwa [show runningTids (t :: ts) = runningTids ts from by
              simp [runningTids, List.filterMap_cons, hx]] at hnd
          | done res =>
            rwa [show runningTids (t :: ts) = runningTids ts from by
              simp [runningTids, List.filterMap_cons, hx]] at hnd
        obtain ⟨ih1, ih2, ih3, ih4, ih5, ih6⟩ := ih _ _ _ _ _ heq2 hbts hndts hgts
        refine ⟨ih1, ?_, ?_, goodThreads_cons.mpr ⟨hgt, ih4⟩, ?_, ?_⟩
        · intro a ha
          rcases (mem_runningTids_cons t rest a).mp ha with hxa | har
          · exact lt_of_lt_of_le
              (hb a ((mem_runningTids_cons t ts a).mpr (Or.inl hxa))) ih1
          · exact ih2 a har
        · cases hx : t.sync.exec with
          | running tid =>
            rw [show runningTids (t :: rest) = tid :: runningTids rest from by
              simp [runningTids, List.filterMap_cons, hx]]
            refine List.Nodup.cons ?_ ih3
            intro hmem
            rcases ih5 tid hmem with hin | hge
            · rw [show runningTids (t :: ts) = tid :: runningTids ts from by
                simp [runningTids, List.filterMap_cons, hx]] at hnd
              exact (List.nodup_cons.mp hnd).1 hin
            · have := hb tid ((mem_runningTids_cons t ts tid).mpr (Or.inl hx))
              omega
          | none =>
            rw [show runningTids (t :: rest) = runningTids rest from by
              simp [runningTids, List.filterMap_cons, hx]]
            exact ih3
          | pending op =>
            rw [show runningTids (t :: rest) = runningTids rest from by
              simp [runningTids, List.filterMap_cons, hx]]
            exact ih3
          | done res =>
            rw [show runningTids (t :: rest) = runningTids rest from by
              simp [runningTids, List.filterMap_cons, hx]]
            exact ih3
        · intro a ha
          rcases (mem_runningTids_cons t rest a).mp ha with hxa | har
          · exact Or.inl ((mem_runningTids_cons t ts a).mpr (Or.inl hxa))
          · rcases ih5 a har with hin | hge
            · exact Or.inl ((mem_runningTids_cons t ts a).mpr (Or.inr hin))
            · exact Or.inr hge
        · intro nm tid hmem
          obtain ⟨hin, hout⟩ := ih6 nm tid hmem
          refine ⟨(mem_runningTids_cons t ts tid).mpr (Or.inr hin), ?_⟩
          intro hin2
          rcases (mem_runningTids_cons t rest tid).mp hin2 with hxa | har
          · have hh : runningTids (t :: ts) = tid :: runningTids ts := by
              simp [runningTids, List.filterMap_cons, hxa]
            rw [hh] at hnd
            exact (List.nodup_cons.mp hnd).1 hin
          · exact hout har

/-- Writing a `done` result into one slot can only shrink the set of
running task ids. -/
theorem runningTids_set_sublist {E Err Op : Type} (ts : List (Thread E Err Op))
    (i : Nat) (t2 : Thread E Err Op) (res : Except Err E)
    (h2 : t2.sync.exec = .done res) :
    (runningTids (ts.set i t2)).Sublist (runningTids ts) := by
  induction ts generalizing i with
  | nil => simp [List.set]
  | cons x xs ih =>
    cases i with
    | zero =>
      rw [List.set]
      rw [show runningTids (t2 :: xs) = runningTids xs from by
        simp [runningTids, List.filterMap_cons, h2]]
      cases hx : x.sync.exec with
      | running tid =>
        rw [show runningTids (x :: xs) = tid :: runningTids xs from by
          simp [runningTids, List.filterMap_cons, hx]]
        exact List.sublist_cons_self tid (runningTids xs)
      | none =>
        rw [show runningTids (x :: xs) = runningTids xs from by
          simp [runningTids, List.filterMap_cons, hx]]
      | pending op =>
        rw [show runningTids (x :: xs) = runningTids xs from by
          simp [runningTids, List.filterMap_cons, hx]]
      | done res2 =>
        rw [show runningTids (x :: xs) = runningTids xs from by
          simp [runningTids, List.filterMap_cons, hx]]
    | succ j =>
      rw [List.set]
      cases hx : x.sync.exec with
      | running tid =>
        rw [show runningTids (x :: xs.set j t2) = tid :: runningTids (xs.set j t2) from by
          simp [runningTids, List.filterMap_cons, hx]]
        rw [show runningTids (x :: xs) = tid :: runningTids xs from by
          simp [runningTids, List.filterMap_cons, hx]]
        exact List.Sublist.cons₂ tid (ih j)
      | none =>
        rw [show runningTids (x :: xs.set j t2) = runningTids (xs.set j t2) from by
          simp [runningTids, List.filterMap_cons, hx]]
        rw [show runningTids (x :: xs) = runningTids xs from by
          simp [runningTids, List.filterMap_cons, hx]]
        exact ih j
      | pending op =>
        rw [show runningTids (x :: xs.set j t2) = runningTids (xs.set j t2) from by
          simp [runningTids, List.filterMap_cons, hx]]
        rw [show runningTids (x :: xs) = runningTids xs from by
          simp [runningTids, List.filterMap_cons, hx]]
        exact ih j
      | done res2 =>
        rw [show runningTids (x :: xs.set j t2) = runningTids (xs.set j t2) from by
          simp [runningTids, List.filterMap_cons, hx]]
        rw [show runningTids (x :: xs) = runningTids xs from by
          simp [runningTids, List.filterMap_cons, hx]]
        exact ih j

/-- A turn that cancels a task retires its id: the id is below the new
counter, no exec runs it any more, and the well-formedness facts carry
over; moreover the cancelled thread was resumed with the selected
event. -/
theorem schedule_cancel {E Err Op : Type} [BEq E] (truthy : E → Bool)
    (ts : List (Thread E Err Op)) (n : Nat) (out : ScheduleOut E Err Op)
    (nm : String) (tid : Nat)
    (h : schedule truthy ts n = .ok out)
    (hb : ∀ a ∈ runningTids ts, a < n)
    (hnd : (runningTids ts).Nodup)
    (hg : GoodThreads ts)
    (hc : (nm, tid) ∈ out.canc) :
    TidRetired tid (out.threads, out.nextTid) ∧
    ∀ e, out.found = some e → (nm, e) ∈ out.resumed := by
  obtain ⟨ha, hfound, hcase⟩ := schedule_inversion truthy ts n out h
  rcases hcase with ⟨e1, he1, ht1, hpc, -⟩ | ⟨-, -, -, hcanc0, -, -⟩
  · obtain ⟨hA1, hA2, hA3, hA4, hA5⟩ :=
      phaseA_inv ts n out.tidA out.afterA out.workA ha hb hnd hg
    obtain ⟨hC1, hC2, hC3, hC4, hC5, hC6⟩ :=
      phaseC_inv e1 out.afterA out.tidA out.nextTid out.threads out.resumed
        out.canc hpc hA2 hA3 hA4
    obtain ⟨hin, hout⟩ := hC6 nm tid hc
    have htidlt : tid < out.tidA := hA2 tid hin
    refine ⟨⟨lt_of_lt_of_le htidlt hC1, hout, hC2, hC3, hC4⟩, ?_⟩
    intro e he
    rw [he] at he1
    injection he1 with he1
    subst he1
    obtain ⟨hlog, hcancL, -⟩ :=
      phaseC_log e out.afterA out.tidA out.nextTid out.threads out.resumed
        out.canc hpc
    obtain ⟨u, hu, hunm, hurun, humatch⟩ := hcancL nm tid hc
    rw [hlog]
    subst hunm
    exact List.mem_map_of_mem _ (List.mem_filter.mpr ⟨hu, humatch⟩)
  · rw [hcanc0] at hc
    simp at hc

/-- Every system transition preserves retirement of a task id. -/
theorem sysStep_retired {E Err Op : Type} [BEq E] (truthy : E → Bool)
    (tid : Nat) (st st2 : List (Thread E Err Op) × Nat)
    (hstep : SysStep truthy st st2) (hr : TidRetired tid st) :
    TidRetired tid st2 := by
  obtain ⟨hlt, hnin, hbound, hnd, hg⟩ := hr
  cases hstep with
  | turn ts n out hsch =>
    obtain ⟨ha, hfound, hcase⟩ := schedule_inversion truthy ts n out hsch
    obtain ⟨hA1, hA2, hA3, hA4, hA5⟩ :=
      phaseA_inv ts n out.tidA out.afterA out.workA ha hbound hnd hg
    rcases hcase with ⟨e1, he1, ht1, hpc, -⟩ | ⟨hth, htid2, -, -, -, -⟩
    · obtain ⟨hC1, hC2, hC3, hC4, hC5, hC6⟩ :=
        phaseC_inv e1 out.afterA out.tidA out.nextTid out.threads out.resumed
          out.canc hpc hA2 hA3 hA4
      refine ⟨lt_of_lt_of_le hlt (le_trans hA1 hC1), ?_, hC2, hC3, hC4⟩
      intro hmem
      rcases hC5 tid hmem with hin1 | hge1
      · rcases hA5 tid hin1 with hin0 | hge0
        · exact hnin hin0
        · omega
      · have := hA1
        omega
    · show TidRetired tid (out.threads, out.nextTid)
      rw [TidRetired]
      rw [hth, htid2]
      refine ⟨lt_of_lt_of_le hlt hA1, ?_, hA2, hA3, hA4⟩
      intro hmem
      rcases hA5 tid hmem with hin0 | hge0
      · exact hnin hin0
      · omega
  | complete ts n i t tid2 res hget hrun =>
    have hsub := runningTids_set_sublist ts i
      { t with sync := { t.sync with exec := .done res } } res rfl
    refine ⟨hlt, fun hmem => hnin (hsub.subset hmem),
      fun a ha => hbound a (hsub.subset ha), hnd.sublist hsub, ?_⟩
    intro u hu
    rcases List.mem_or_eq_of_mem_set hu with hu2 | rfl
    · exact hg u hu2
    · have ht := hg t (List.get?_mem hget)
      exact ht

/-- Retirement of a task id persists along every reachable future. -/
theorem reachable_retired {E Err Op : Type} [BEq E] (truthy : E → Bool)
    (tid : Nat) (st st2 : List (Thread E Err Op) × Nat)
    (h : Reachable truthy st st2) (hr : TidRetired tid st) :
    TidRetired tid st2 := by
  induction h with
  | refl => exact hr
  | tail hab hbc ih => exact sysStep_retired truthy tid _ _ hbc ih

/-- The body `bodyDone` is good: it yields nothing further. -/
theorem goodBody_bodyDone : GoodBody String String Unit bodyDone :=
  GoodBody.mk _ _ (fun _ => GoodRes.dones) (fun e => GoodRes.raises e)

/-- Claim C8 (confirmed): consider a well-formed state (running task ids
distinct and below the counter, bodies built from `makeSyncSpec`).  If a
turn cancels task `tid` in Phase C, then in the post-turn state and in
every state reachable from it by further turns and op completions, no
exec is `running tid` — so the environment transition that would write the
cancelled op's `done` result is never enabled again, the result is
discarded, and no value or error from it is ever delivered.  Moreover the
cancelled thread's body was resumed with the selected event in that very
turn. -/
theorem c8_cancelled_never_done {E Err Op : Type} [BEq E] (truthy : E → Bool)
    (ts : List (Thread E Err Op)) (n : Nat) (out : ScheduleOut E Err Op)
    (nm : String) (tid : Nat) (st2 : List (Thread E Err Op) × Nat)
    (hb : ∀ a ∈ runningTids ts, a < n)
    (hnd : (runningTids ts).Nodup)
    (hg : GoodThreads ts)
    (h : schedule truthy ts n = .ok out)
    (hc : (nm, tid) ∈ out.canc)
    (hreach : Reachable truthy (out.threads, out.nextTid) st2) :
    tid ∉ runningTids st2.1 ∧
    ∀ e, out.found = some e → (nm, e) ∈ out.resumed := by
  obtain ⟨hret, hres⟩ := schedule_cancel truthy ts n out nm tid h hb hnd hg hc
  have hret2 := reachable_retired truthy tid _ st2 hreach hret
  exact ⟨hret2.2.1, hres⟩

/-- Claim C8, witness: thread "A" waits for "x" with its op running as
task 0; thread "B" posts "x".  The turn cancels task 0 and resumes "A"
with "x"; task 0 is no longer running in the resulting state. -/
theorem c8_witness : (0 : Nat) ∉ runningTids c8out.threads := by
  have hsch : schedule truthyStr [c8tA, c8tB] 1 = Except.ok c8out := by rfl
  have hgood : GoodThreads [c8tA, c8tB] := by
    intro t ht
    rcases List.mem_cons.mp ht with rfl | ht2
    · exact goodBody_bodyDone
    · rcases List.mem_cons.mp ht2 with rfl | ht3
      · exact goodBody_bodyDone
      · exact absurd ht3 (List.not_mem_nil t)
  exact (c8_cancelled_never_done truthyStr [c8tA, c8tB] 1 c8out "A" 0
    (c8out.threads, c8out.nextTid) (by decide) (by decide) hgood hsch
    (by decide) Relation.ReflTransGen.refl).1
